import Mathlib

set_option maxRecDepth 100000

/-!
Verification of the Draft Normalization & Shaping Pipeline
(`app/routers/thoughtpost.py`, `app/services/rewrite.py`).

Text is modelled as `List Char` (Python `str` is a sequence of Unicode code
points).  Python regular-expression substitutions are modelled by explicit
left-to-right scanners.  Scanners that jump over a matched chunk take a fuel
argument; the wrapper passes the input length, which always suffices because
every match consumes at least one character.
-/

/-- Python `str.isspace` / regex `\s` character class (Unicode whitespace). -/
def pyIsSpace (c : Char) : Bool :=
  let n := c.toNat
  (n == 0x20) || (0x09 ≤ n && n ≤ 0x0D) || (0x1C ≤ n && n ≤ 0x1F) ||
  (n == 0x85) || (n == 0xA0) || (n == 0x1680) ||
  (0x2000 ≤ n && n ≤ 0x200A) || (n == 0x2028) || (n == 0x2029) ||
  (n == 0x202F) || (n == 0x205F) || (n == 0x3000)

/-- Characters removed by `re.sub(r"[\x00-\x08\x0B\x0C\x0E-\x1F\x7F]", "", t)`
in `_strip_mojibake`. -/
def ctrlChar (c : Char) : Bool :=
  let n := c.toNat
  (n ≤ 0x08) || (n == 0x0B) || (n == 0x0C) || (0x0E ≤ n && n ≤ 0x1F) || (n == 0x7F)

/-- Python `str.lower` restricted to the ASCII and Latin-1 letters (all the
characters the pipeline's case-insensitive comparisons ever see). -/
def pyLowerChar (c : Char) : Char :=
  let n := c.toNat
  if (0x41 ≤ n && n ≤ 0x5A) || (0xC0 ≤ n && n ≤ 0xDE && n ≠ 0xD7) then
    Char.ofNat (n + 0x20)
  else c

/-- Lowercase a whole string (`str.lower`). -/
def pyLower (l : List Char) : List Char := l.map pyLowerChar

/-- Python regex `\w` (word character): alphanumerics, underscore, and the
Latin-1 letters (the subset of Unicode `\w` the pipeline's patterns touch). -/
def pyWordChar (c : Char) : Bool :=
  let n := c.toNat
  (0x30 ≤ n && n ≤ 0x39) || (0x41 ≤ n && n ≤ 0x5A) || (0x61 ≤ n && n ≤ 0x7A) ||
  (n == 0x5F) ||
  (0xC0 ≤ n && n ≤ 0xFF && n ≠ 0xD7 && n ≠ 0xF7)

/-- `lead pat l = some rest` iff `l` begins with `pat`, with `rest` what
follows; the core building block for literal matching. -/
def lead : List Char → List Char → Option (List Char)
  | [], l => some l
  | _ :: _, [] => none
  | p :: ps, c :: cs => if p = c then lead ps cs else none

/-- Does `pat` occur as a contiguous substring of `l`? -/
def hasSeq (pat : List Char) : List Char → Bool
  | [] => (lead pat []).isSome
  | c :: cs => (lead pat (c :: cs)).isSome || hasSeq pat cs

/-- Does the two-character sequence `p₁ p₂` occur in `l`? -/
def hasPair (p₁ p₂ : Char) : List Char → Bool
  | c₁ :: c₂ :: rest => (c₁ = p₁ && c₂ = p₂) || hasPair p₁ p₂ (c₂ :: rest)
  | _ => false

/-- Python `str.replace(p₁p₂, r)` for a two-character pattern: left-to-right,
non-overlapping replacement (both calls in `_strip_mojibake` have this shape). -/
def replace2 (p₁ p₂ : Char) (r : List Char) : List Char → List Char
  | c₁ :: c₂ :: rest =>
    if c₁ = p₁ ∧ c₂ = p₂ then r ++ replace2 p₁ p₂ r rest
    else c₁ :: replace2 p₁ p₂ r (c₂ :: rest)
  | l => l

/-- Drop leading Python whitespace (`str.lstrip`). -/
def trimStart (l : List Char) : List Char := l.dropWhile pyIsSpace

/-- Drop trailing Python whitespace (`str.rstrip`). -/
def trimEnd (l : List Char) : List Char := (l.reverse.dropWhile pyIsSpace).reverse

/-- Python `str.strip()`. -/
def pyStrip (l : List Char) : List Char := trimEnd (trimStart l)

/-- Python `str.rstrip(chars)` for an explicit character set. -/
def rstripSet (set : List Char) (l : List Char) : List Char :=
  (l.reverse.dropWhile (fun c => set.contains c)).reverse

/-- Python `t.split("\n")`. -/
def splitNl : List Char → List (List Char)
  | [] => [[]]
  | c :: cs =>
    if c = '\n' then [] :: splitNl cs
    else
      match splitNl cs with
      | g :: gs => (c :: g) :: gs
      | [] => [[c]]

/-- Python `"\n".join(lines)`. -/
def joinNl (ls : List (List Char)) : List Char := List.intercalate ['\n'] ls

/-- Regex `re.sub(r"(?:\r\n|\r|\n)", "\n", t)`: canonicalize line endings. -/
def newlineNorm : List Char → List Char
  | [] => []
  | [c] => if c = '\r' then ['\n'] else [c]
  | c :: d :: cs =>
    if c = '\r' then
      if d = '\n' then '\n' :: newlineNorm cs
      else '\n' :: newlineNorm (d :: cs)
    else c :: newlineNorm (d :: cs)

/-- One lead-byte alternative of the detection regex: the current character
is `Â`, `â` or `ð` and the next lies in the continuation range. -/
def mojibakeLead (c : Char) (cs : List Char) : Bool :=
  match cs with
  | d :: _ => (c = 'Â' || c = 'â' || c = 'ð') && (0x80 ≤ d.toNat && d.toNat ≤ 0xBF)
  | [] => false

/-- Detection regex of `_strip_mojibake`:
`[\u0080-\u009F]|[Ââ][\u0080-¿]|ð[\u0080-¿]`. -/
def mojibakeDetect : List Char → Bool
  | [] => false
  | c :: cs =>
    (0x80 ≤ c.toNat && c.toNat ≤ 0x9F) || mojibakeLead c cs || mojibakeDetect cs

/-- Python `s.encode("latin1", errors="ignore")`: code points below 256 become
bytes, larger ones are dropped. -/
def encodeLatin1Ignore (l : List Char) : List Nat :=
  l.filterMap (fun c => if c.toNat < 256 then some c.toNat else none)

/-- Is `b` a UTF-8 continuation byte? -/
def contOk (b : Nat) : Bool := 0x80 ≤ b && b ≤ 0xBF

/-- Python `bytes.decode("utf-8", errors="ignore")`: standard UTF-8 decoding;
an invalid sequence's maximal valid subpart is skipped without output.
Fuel-driven; the wrapper passes the byte-list length, which always suffices. -/
def decodeUtf8IgnoreF : Nat → List Nat → List Char
  | 0, _ => []
  | _ + 1, [] => []
  | n + 1, b :: bs =>
    if b < 0x80 then Char.ofNat b :: decodeUtf8IgnoreF n bs
    else if b < 0xC2 then decodeUtf8IgnoreF n bs
    else if b ≤ 0xDF then
      match bs with
      | [] => []
      | b₂ :: rest =>
        if contOk b₂ then
          Char.ofNat ((b - 0xC0) * 64 + (b₂ - 0x80)) :: decodeUtf8IgnoreF n rest
        else decodeUtf8IgnoreF n bs
    else if b ≤ 0xEF then
      let lo := if b == 0xE0 then 0xA0 else 0x80
      let hi := if b == 0xED then 0x9F else 0xBF
      match bs with
      | [] => []
      | b₂ :: rest₂ =>
        if lo ≤ b₂ && b₂ ≤ hi then
          match rest₂ with
          | [] => []
          | b₃ :: rest₃ =>
            if contOk b₃ then
              Char.ofNat ((b - 0xE0) * 4096 + (b₂ - 0x80) * 64 + (b₃ - 0x80)) ::
                decodeUtf8IgnoreF n rest₃
            else decodeUtf8IgnoreF n rest₂
        else decodeUtf8IgnoreF n bs
    else if b ≤ 0xF4 then
      let lo := if b == 0xF0 then 0x90 else 0x80
      let hi := if b == 0xF4 then 0x8F else 0xBF
      match bs with
      | [] => []
      | b₂ :: rest₂ =>
        if lo ≤ b₂ && b₂ ≤ hi then
          match rest₂ with
          | [] => []
          | b₃ :: rest₃ =>
            if contOk b₃ then
              match rest₃ with
              | [] => []
              | b₄ :: rest₄ =>
                if contOk b₄ then
                  Char.ofNat ((b - 0xF0) * 262144 + (b₂ - 0x80) * 4096 +
                    (b₃ - 0x80) * 64 + (b₄ - 0x80)) :: decodeUtf8IgnoreF n rest₄
                else decodeUtf8IgnoreF n rest₃
            else decodeUtf8IgnoreF n rest₂
        else decodeUtf8IgnoreF n bs
    else decodeUtf8IgnoreF n bs

/-- One `s.encode("latin1","ignore").decode("utf-8","ignore")` pass. -/
def roundtripPass (l : List Char) : List Char :=
  let bs := encodeLatin1Ignore l
  decodeUtf8IgnoreF bs.length bs

/-- `_fix_mojibake_roundtrip` (`thoughtpost.py` lines 40-56, identical copy in
`linkedin_publish.py` lines 55-70): up to two latin1/utf-8 round trips,
stopping early when a pass yields an empty or unchanged result. -/
def fixMojibakeRoundtrip (s : List Char) : List Char :=
  if s = [] then s
  else
    let s₁ := roundtripPass s
    if s₁ = [] ∨ s₁ = s then s
    else
      let s₂ := roundtripPass s₁
      if s₂ = [] ∨ s₂ = s₁ then s₁
      else s₂


/-- Characters allowed in a named character reference by the stdlib regex
`&(#[0-9]+;?|#[xX][0-9a-fA-F]+;?|[^\t\n\f <&#;]{1,32};?)`. -/
def entNameChar (c : Char) : Bool :=
  !(c = '\t' || c = '\n' || c = '\x0C' || c = ' ' || c = '<' || c = '&' ||
    c = '#' || c = ';')

/-- Take up to `n` characters satisfying `p`, returning them with the rest. -/
def takeCount (p : Char → Bool) : Nat → List Char → List Char × List Char
  | _, [] => ([], [])
  | 0, l => ([], l)
  | n + 1, c :: cs =>
    if p c then
      let t := takeCount p n cs
      (c :: t.1, t.2)
    else ([], c :: cs)

/-- Models the stdlib `html5` entity table restricted to the common entities
the pipeline can meet (the full table has ≈2200 entries; entries without a
trailing semicolon are the legacy HTML names, exactly as in the stdlib). -/
def html5Table : List (List Char × List Char) :=
  [("amp;".data, "&".data), ("amp".data, "&".data),
   ("lt;".data, "<".data), ("lt".data, "<".data),
   ("gt;".data, ">".data), ("gt".data, ">".data),
   ("quot;".data, "\"".data), ("quot".data, "\"".data),
   ("apos;".data, "'".data),
   ("nbsp;".data, " ".data), ("nbsp".data, " ".data),
   ("copy;".data, "©".data), ("copy".data, "©".data),
   ("reg;".data, "®".data), ("reg".data, "®".data),
   ("hellip;".data, "…".data), ("mdash;".data, "—".data),
   ("ndash;".data, "–".data), ("lsquo;".data, "‘".data),
   ("rsquo;".data, "’".data), ("ldquo;".data, "“".data),
   ("rdquo;".data, "”".data), ("bull;".data, "•".data),
   ("middot;".data, "·".data), ("deg;".data, "°".data),
   ("trade;".data, "™".data), ("euro;".data, "€".data),
   ("laquo;".data, "«".data), ("laquo".data, "«".data),
   ("raquo;".data, "»".data), ("raquo".data, "»".data),
   ("times;".data, "×".data), ("times".data, "×".data),
   ("divide;".data, "÷".data), ("divide".data, "÷".data)]

/-- Look a key up in the entity table. -/
def tableFind (key : List Char) : Option (List Char) :=
  match html5Table.find? (fun e => e.1 == key) with
  | some e => some e.2
  | none => none

/-- Python `html._replace_charref` named lookup: try decreasing key lengths
`x = len(s)-1 … 2`, returning the replacement plus the unconsumed tail. -/
def entShrinkAux (s : List Char) : Nat → Option (List Char × List Char)
  | 0 => none
  | x + 1 =>
    if x + 1 < 2 then none
    else
      match tableFind (s.take (x + 1)) with
      | some rep => some (rep, s.drop (x + 1))
      | none => entShrinkAux s x

/-- Resolve a named reference group (name with optional semicolon): full
match first, then the longest shorter key of length ≥ 2. -/
def entResolve (s : List Char) : Option (List Char × List Char) :=
  match tableFind s with
  | some rep => some (rep, [])
  | none => entShrinkAux s (s.length - 1)

/-- Decimal digit value. -/
def digitVal (c : Char) : Option Nat :=
  if '0' ≤ c ∧ c ≤ '9' then some (c.toNat - 48) else none

/-- Hexadecimal digit value. -/
def hexVal (c : Char) : Option Nat :=
  if '0' ≤ c ∧ c ≤ '9' then some (c.toNat - 48)
  else if 'a' ≤ c ∧ c ≤ 'f' then some (c.toNat - 87)
  else if 'A' ≤ c ∧ c ≤ 'F' then some (c.toNat - 55)
  else none

/-- Python `html._invalid_charrefs`: numeric references mapped specially
(the Windows-1252 repertoire and a few controls). -/
def invalidCharrefs : List (Nat × List Char) :=
  [(0x00, ['�']), (0x0D, ['\x0D']), (0x80, ['€']), (0x81, ['\u0081']),
   (0x82, ['‚']), (0x83, ['ƒ']), (0x84, ['„']), (0x85, ['…']), (0x86, ['†']),
   (0x87, ['‡']), (0x88, ['ˆ']), (0x89, ['‰']), (0x8A, ['Š']), (0x8B, ['‹']),
   (0x8C, ['Œ']), (0x8D, ['\u008D']), (0x8E, ['Ž']), (0x8F, ['\u008F']),
   (0x90, ['\u0090']), (0x91, ['‘']), (0x92, ['’']), (0x93, ['“']),
   (0x94, ['”']), (0x95, ['•']), (0x96, ['–']), (0x97, ['—']), (0x98, ['˜']),
   (0x99, ['™']), (0x9A, ['š']), (0x9B, ['›']), (0x9C, ['œ']),
   (0x9D, ['\u009D']), (0x9E, ['ž']), (0x9F, ['Ÿ'])]

/-- Numeric character reference to text (`html._replace_charref`, `#` case). -/
def charref (n : Nat) : List Char :=
  match invalidCharrefs.find? (fun e => e.1 == n) with
  | some e => e.2
  | none =>
    if (0xD800 ≤ n && n ≤ 0xDFFF) || n > 0x10FFFF then ['�']
    else if (1 ≤ n && n ≤ 8) || n == 0x0B || (0x0E ≤ n && n ≤ 0x1F) ||
            n == 0x7F || (0xFDD0 ≤ n && n ≤ 0xFDEF) ||
            n % 0x10000 == 0xFFFE || n % 0x10000 == 0xFFFF then []
    else [Char.ofNat n]

/-- Fold digit values into a number. -/
def digitsToNat (base : Nat) (ds : List Nat) : Nat :=
  ds.foldl (fun a d => a * base + d) 0

/-- Try to match one character reference right after a `&`; returns the
replacement text and the unconsumed remainder. `none` leaves the `&` alone. -/
def entMatch (cs : List Char) : Option (List Char × List Char) :=
  match cs with
  | '#' :: rest =>
    match rest with
    | [] => none
    | x :: rest₂ =>
      if x = 'x' ∨ x = 'X' then
        let ds := rest₂.takeWhile (fun c => (hexVal c).isSome)
        if ds = [] then none
        else
          let after := rest₂.dropWhile (fun c => (hexVal c).isSome)
          let after := match after with | ';' :: r => r | _ => after
          some (charref (digitsToNat 16 (ds.filterMap hexVal)), after)
      else
        let ds := rest.takeWhile (fun c => (digitVal c).isSome)
        if ds = [] then none
        else
          let after := rest.dropWhile (fun c => (digitVal c).isSome)
          let after := match after with | ';' :: r => r | _ => after
          some (charref (digitsToNat 10 (ds.filterMap digitVal)), after)
  | _ =>
    let t := takeCount entNameChar 32 cs
    if t.1 = [] then none
    else
      match t.2 with
      | ';' :: r₂ =>
        match entResolve (t.1 ++ [';']) with
        | some (rep, left) => some (rep ++ left, r₂)
        | none => none
      | _ =>
        match entResolve t.1 with
        | some (rep, left) => some (rep ++ left, t.2)
        | none => none

/-- Python `html.unescape`, as a left-to-right scanner (fuel-driven; the
wrapper passes the input length, which always suffices because a reference
consumes at least two characters). -/
def pyUnescapeF : Nat → List Char → List Char
  | 0, l => l
  | _ + 1, [] => []
  | n + 1, c :: cs =>
    if c = '&' then
      match entMatch cs with
      | some (rep, rest) => rep ++ pyUnescapeF n rest
      | none => c :: pyUnescapeF n cs
    else c :: pyUnescapeF n cs

/-- Python `html.unescape`. -/
def pyUnescape (l : List Char) : List Char := pyUnescapeF l.length l


/-- Consume `\s*\.` (greedy whitespace, then a mandatory period). -/
def dotStep (l : List Char) : Option (List Char) :=
  match l.dropWhile pyIsSpace with
  | c :: r => if c = '.' then some r else none
  | [] => none

/-- One attempted match of `\s*\.\s*\.\s*\.?\s*` anchored at the start of `l`
(quantifiers are greedy; `\s` never matches `.`, so no backtracking arises).
Returns the remainder after the matched span. -/
def ellipsisMatch (l : List Char) : Option (List Char) :=
  match dotStep l with
  | none => none
  | some r₁ =>
    match dotStep r₁ with
    | none => none
    | some r₃ =>
      match dotStep r₃ with
      | some r₅ => some (r₅.dropWhile pyIsSpace)
      | none => some (r₃.dropWhile pyIsSpace)

/-- Regex `re.sub(r"\s*\.\s*\.\s*\.?\s*", ". ", t)`: leftmost-first scan,
each match replaced by a period and a space. -/
def ellipsisSubF : Nat → List Char → List Char
  | 0, l => l
  | _ + 1, [] => []
  | n + 1, c :: cs =>
    match ellipsisMatch (c :: cs) with
    | some rest => '.' :: ' ' :: ellipsisSubF n rest
    | none => c :: ellipsisSubF n cs

/-- Ellipsis-run normalization step of `_strip_mojibake`. -/
def ellipsisSub (l : List Char) : List Char := ellipsisSubF l.length l

/-- Scanner position predicate: does some position of `l` start an
ellipsis-pattern match? -/
def hasEllipsis : List Char → Bool
  | [] => (ellipsisMatch []).isSome
  | c :: cs => (ellipsisMatch (c :: cs)).isSome || hasEllipsis cs


/-- Blank-line limiter loop of `_strip_mojibake` (lines 250-258): keep at most
one consecutive empty line. -/
def collapseBlanks : Nat → List (List Char) → List (List Char)
  | _, [] => []
  | blank, ln :: rest =>
    if ln = [] then
      if blank + 1 ≤ 1 then [] :: collapseBlanks (blank + 1) rest
      else collapseBlanks (blank + 1) rest
    else ln :: collapseBlanks 0 rest

/-- Encoding-repair portion of `_strip_mojibake` (`thoughtpost.py` lines
221-238, the §4.1 "repair" component): mojibake detection and round-trip
repair, then the two NBSP fallback replacements. -/
def repairStage (text : List Char) : List Char :=
  if text = [] then []
  else
    let t := if mojibakeDetect text then fixMojibakeRoundtrip text else text
    let t := replace2 'Â' ' ' [' '] t
    replace2 'Â' ' ' [' '] t

/-- `_strip_mojibake` continued: the repair stage, then HTML-entity decoding,
control stripping, ellipsis normalization, newline canonicalization,
per-line strip with single-blank-line limiting, and a final strip. -/
def stripMojibake (text : List Char) : List Char :=
  if text = [] then []
  else
    let t := pyUnescape (repairStage text)
    let t := t.filter (fun c => !ctrlChar c)
    let t := ellipsisSub t
    let t := newlineNorm t
    pyStrip (joinNl (collapseBlanks 0 ((splitNl t).map pyStrip)))

/-- Does `l` begin with the literal `pat` followed by at least one
non-whitespace character? -/
def startsPat (pat l : List Char) : Bool :=
  match lead pat l with
  | some (d :: _) => !pyIsSpace d
  | _ => false

/-- One attempted match of `https?://\S+` anchored at the start of `l`:
the greedy `https?` tries the `s` alternative first (the two literals are
mutually exclusive at their fifth character), and `\S+` is a maximal
non-empty run of non-whitespace.  Returns the remainder after the match. -/
def urlMatch (l : List Char) : Option (List Char) :=
  if startsPat ("https://".data) l then
    some (((lead ("https://".data) l).getD []).dropWhile (fun d => !pyIsSpace d))
  else if startsPat ("http://".data) l then
    some (((lead ("http://".data) l).getD []).dropWhile (fun d => !pyIsSpace d))
  else none

/-- Regex `re.sub(r"https?://\S+", "", t)`: leftmost-first scan, matches
removed. -/
def urlSubF : Nat → List Char → List Char
  | 0, l => l
  | _ + 1, [] => []
  | n + 1, c :: cs =>
    match urlMatch (c :: cs) with
    | some rest => urlSubF n rest
    | none => c :: urlSubF n cs

/-- Raw-URL removal step (`_cleanup`, `_light_cleanup`, the orchestrator's
defensive second pass). -/
def urlSub (l : List Char) : List Char := urlSubF l.length l

/-- Does some position of `l` start a `https?://\S+` match? -/
def hasUrl : List Char → Bool
  | [] => (urlMatch []).isSome
  | c :: cs => (urlMatch (c :: cs)).isSome || hasUrl cs


/-- `_cleanup` (`thoughtpost.py` lines 362-366): `_strip_mojibake`, then raw
URL removal, then strip. -/
def cleanup (outText : List Char) : List Char :=
  pyStrip (urlSub (stripMojibake outText))

/-- Regex `re.sub(r"\n{3,}", "\n\n", t)` of `_light_cleanup`: cap blank-line
runs. -/
def capNlF : Nat → List Char → List Char
  | 0, l => l
  | _ + 1, [] => []
  | n + 1, '\n' :: cs =>
    let run := cs.takeWhile (fun c => c == '\n')
    let rest := cs.dropWhile (fun c => c == '\n')
    if 2 ≤ run.length then '\n' :: '\n' :: capNlF n rest
    else '\n' :: (run ++ capNlF n rest)
  | n + 1, c :: cs => c :: capNlF n cs

/-- Blank-line cap of `_light_cleanup`. -/
def capNl (l : List Char) : List Char := capNlF l.length l

/-- `_light_cleanup` (`rewrite.py` lines 23-32): entity decoding, newline
normalization, blank-line cap, raw URL removal, strip. -/
def lightCleanup (s : List Char) : List Char :=
  if s = [] then []
  else pyStrip (urlSub (capNl (newlineNorm (pyUnescape s))))


/-- Explicit-tag dedup loop of `_choose_tags` (lines 263-270): strip each tag,
drop empties and case-insensitive duplicates. -/
def dedupStrip (seen : List (List Char)) : List (List Char) → List (List Char)
  | [] => []
  | h :: rest =>
    let h₁ := pyStrip h
    if h₁ = [] ∨ (pyLower h₁) ∈ seen then dedupStrip seen rest
    else h₁ :: dedupStrip (pyLower h₁ :: seen) rest

/-- Left word boundary (`\b`): start of text or a non-word character before. -/
def bdryL : Option Char → Bool
  | none => true
  | some c => !pyWordChar c

/-- Right word boundary (`\b`): end of text or a non-word character after. -/
def bdryR : List Char → Bool
  | [] => true
  | d :: _ => !pyWordChar d

/-- Scan `l` for an occurrence of the literal `pat` flanked by word
boundaries; `prev` is the character before the current position. -/
def wordHitAux (pat : List Char) : Option Char → List Char → Bool
  | prev, [] =>
    bdryL prev &&
      (match lead pat [] with | some rest => bdryR rest | none => false)
  | prev, c :: cs =>
    (bdryL prev &&
      (match lead pat (c :: cs) with | some rest => bdryR rest | none => false)) ||
    wordHitAux pat (some c) cs

/-- `re.search(r"\b pat \b", l)` for a literal alternative `pat`. -/
def wordHit (pat : List Char) (l : List Char) : Bool := wordHitAux pat none l

/-- `re.search(r"\b(p₁|p₂|…)\b", l)`. -/
def wordHitAny (pats : List (List Char)) (l : List Char) : Bool :=
  pats.any (fun p => wordHit p l)

/-- Keyword scan of `_choose_tags` (lines 274-280) over the lowercased body,
with the optional privacy tag. -/
def scanWant (raw : List Char) (addPrivacy : Bool) : List (List Char) :=
  (if wordHitAny [("ai".data), ("model".data), ("genai".data), ("llm".data),
      ("copilot".data)] raw then [("#AI".data)] else []) ++
  (if wordHitAny [("supply chain".data), ("logistics".data),
      ("manufacturing".data)] raw then [("#SupplyChain".data)] else []) ++
  (if wordHitAny [("finance".data), ("loan".data), ("equity".data),
      ("valuation".data), ("funding".data)] raw then [("#Finance".data)] else []) ++
  (if wordHitAny [("policy".data), ("regulation".data), ("administration".data),
      ("trade".data)] raw then [("#Policy".data)] else []) ++
  (if addPrivacy then [("#Privacy".data)] else [])

/-- Fixed angle→tag-pair table of `_choose_tags` (lines 282-288), with the
`.get` default `["#Leadership"]`. -/
def angleDefaults (angleKey : List Char) : List (List Char) :=
  if angleKey = ("career".data) then [("#CareerGrowth".data), ("#Upskilling".data)]
  else if angleKey = ("leadership".data) then [("#Leadership".data), ("#Execution".data)]
  else if angleKey = ("market".data) then [("#MarketTrends".data), ("#Strategy".data)]
  else if angleKey = ("hiring".data) then [("#Hiring".data), ("#TeamBuilding".data)]
  else if angleKey = ("ops".data) then [("#Operations".data), ("#Reliability".data)]
  else [("#Leadership".data)]

/-- Final keep-at-most-3-unique loop of `_choose_tags` (lines 291-296);
`n` is the number of tags already kept. -/
def pickTags (seen : List (List Char)) (n : Nat) : List (List Char) → List (List Char)
  | [] => []
  | h :: rest =>
    if (pyLower h) ∈ seen then pickTags seen n rest
    else if n + 1 = 3 then [h]
    else h :: pickTags (pyLower h :: seen) (n + 1) rest

/-- `_choose_tags` (`thoughtpost.py` lines 262-297).  Note the source's
priority: `picks = topics[:3] or want or angle_defaults.get(...)`. -/
def chooseTags (body : List Char) (topics : List (List Char)) (angleKey : List Char)
    (baseTags : List (List Char)) (addPrivacy : Bool) : List (List Char) :=
  let base := dedupStrip [] baseTags
  if base ≠ [] then base.take 3
  else
    let raw := pyLower body
    let want := scanWant raw addPrivacy
    let picks :=
      if topics.take 3 ≠ [] then topics.take 3
      else if want ≠ [] then want
      else angleDefaults angleKey
    pickTags [] 0 picks


/-- `(lead pat l).isSome`: Python `l.startswith(pat)`. -/
def startsW (pat l : List Char) : Bool := (lead pat l).isSome

/-- Regex `re.sub(r"(?is)^.*?(?=\w)", "", t)`: drop everything before the
first word character (no match, hence no change, when there is none). -/
def dropToWord (t : List Char) : List Char :=
  if t.any pyWordChar then t.dropWhile (fun c => !pyWordChar c) else t

/-- The exception `_enforce_shape` raises: line 316 reads the local variable
`body`, which is only assigned further down (318/336/347/…), so Python
raises before any of those assignments can run; the name `tags` used at line
354 is likewise never bound. -/
def unboundLocalBody : String :=
  "UnboundLocalError: local variable body referenced before assignment"

/-- `_enforce_shape` (`thoughtpost.py` lines 299-360).  Lines 301-313 run
(preamble strip, subject choice, voice/privacy flags); line 316 then reads
the unassigned local `body` and raises, for every input. -/
def enforceShape (t : List Char) (maxWords : Nat) (angle : Option (List Char))
    (topics : List (List Char)) (sourceTitle : Option (List Char))
    (terms : List (List Char)) : Except String (List Char) :=
  let low := pyLower t
  let t :=
    if startsW ("you are".data) low ∨ startsW ("write".data) low ∨
        hasSeq ("keep it under".data) low then
      pyStrip (dropToWord t)
    else t
  let subj :=
    pyStrip (match terms with
      | s :: _ => s
      | [] =>
        match sourceTitle with
        | some st => if st = [] then ("this change".data) else st
        | none => ("this change".data))
  let rawCtx := (match sourceTitle with | some st => st | none => []) ++ [' '] ++ t
  let isVoice := wordHitAny [("call".data), ("voice".data), ("record".data),
    ("recording".data), ("recorded".data), ("transcript".data),
    ("telephony".data), ("phone".data)] (pyLower rawCtx)
  let isPriv := wordHitAny [("consent".data), ("privacy".data), ("data".data),
    ("dpa".data), ("gdpr".data), ("ccpa".data), ("retention".data),
    ("revocation".data)] (pyLower rawCtx)
  let voicePriv := isVoice || isPriv
  have _ := subj
  have _ := voicePriv
  have _ := (maxWords, angle, topics)
  Except.error unboundLocalBody

/-- Regex `re.sub(r"\s+", " ", s)`: collapse whitespace runs. -/
def wsCollapseF : Nat → List Char → List Char
  | 0, l => l
  | _ + 1, [] => []
  | n + 1, c :: cs =>
    if pyIsSpace c then ' ' :: wsCollapseF n (cs.dropWhile pyIsSpace)
    else c :: wsCollapseF n cs

/-- Whitespace collapsing step of `_first_sentence`. -/
def wsCollapse (l : List Char) : List Char := wsCollapseF l.length l

/-- `parts[0]` of `re.split(r"(?<=[.!?])\s+", s)`: everything up to (and
including) the first sentence-terminal punctuation followed by whitespace. -/
def firstPart : List Char → List Char
  | [] => []
  | c :: cs =>
    if (c == '.' || c == '!' || c == '?') &&
        (match cs with | d :: _ => pyIsSpace d | [] => false) then [c]
    else c :: firstPart cs

/-- `_first_sentence` (`thoughtpost.py` lines 447-459). -/
def firstSentence (s : List Char) (limit : Nat) : List Char :=
  if s = [] then []
  else
    let s := urlSub s
    let s := pyUnescape s
    let s := pyStrip (wsCollapse s)
    let head := pyStrip (firstPart s)
    if limit < head.length then
      rstripSet (",;: ".data) (head.take (limit - 1)) ++ ['…']
    else head

/-- `ThoughtPostRequest` (`thoughtpost.py` lines 28-34); strings are lists of
characters, optional fields are `Option`. -/
structure ThoughtPostRequest where
  text : List Char
  tone : List Char
  angle : Option (List Char)
  max_words : Nat
  source_title : Option (List Char)
  source_link : Option (List Char)

/-- The validation the HTTP layer enforces before the pipeline runs:
`min_length=1` on `text`, `ge=80, le=300` on `max_words`. -/
def validRequest (r : ThoughtPostRequest) : Prop :=
  r.text ≠ [] ∧ 80 ≤ r.max_words ∧ r.max_words ≤ 300

/-- The three fixed bullet lines of `_fallback_from_req`. -/
def fallbackBullets : List (List Char) :=
  [("• ✅ What changed: Summarize the impact and scope so priorities don’t drift.".data),
   ("• Impact: Clarify who’s affected and which KPIs or deadlines move.".data),
   ("• Next step: Write the tradeoffs (timeline, resources, risk) and share the decision in one place.".data)]

/-- The fixed closing question line of `_fallback_from_req`. -/
def fallbackClosing : List Char :=
  ("What’s the first tradeoff you’ll make to keep focus? 🤔".data)

/-- `_fallback_from_req` (`thoughtpost.py` lines 461-479): deterministic
template post built from the request's source text and title only. -/
def fallbackFromReq (r : ThoughtPostRequest) : List Char :=
  let title := pyStrip (match r.source_title with | some s => s | none => [])
  let summary := pyStrip r.text
  let fs := firstSentence summary 240
  let head := if fs = [] then (if title ≠ [] then title else ("Quick update".data)) else fs
  let headline :=
    if title ≠ [] ∧ head ≠ [] ∧ ¬ startsW (pyLower title) (pyLower head) then
      title ++ (": ".data) ++ head
    else if head ≠ [] then head
    else if title ≠ [] then title
    else ("Quick update".data)
  pyStrip (joinNl ([headline, []] ++ fallbackBullets ++ [[], fallbackClosing]))

/-- `generate_thoughtpost` (`thoughtpost.py` lines 481-512).  `gen` models
the combined OpenAI/HF generation attempt: `Except.error` stands for both
providers failing, in which case the handler sets `raw = ""`.  Cleanup, a
defensive second URL strip, and the empty-draft fallback follow the source;
every step of the model is total, as the handler catches all exceptions. -/
def generateThoughtpost (req : ThoughtPostRequest) (gen : Except String (List Char)) :
    List Char :=
  let raw := match gen with | Except.ok s => s | Except.error _ => []
  let cleaned := cleanup raw
  let cleaned := pyStrip (urlSub cleaned)
  if cleaned = [] then fallbackFromReq req
  else cleaned

/-- Modelled from the spec: §8's raw-URL pattern "scheme://non-whitespace"
for an arbitrary scheme — a nonempty run of ASCII letters, `://`, then at
least one non-whitespace character — used only to compare the code's
behaviour against the spec's wording. -/
def specSchemeUrlAt (l : List Char) : Bool :=
  let sch := l.takeWhile (fun c => c.isAlpha)
  match lead ("://".data) (l.dropWhile (fun c => c.isAlpha)) with
  | some (d :: _) => !sch.isEmpty && !pyIsSpace d
  | _ => false

/-- Does any position of `l` start a spec-pattern raw URL? -/
def hasSpecSchemeUrl : List Char → Bool
  | [] => specSchemeUrlAt []
  | c :: cs => specSchemeUrlAt (c :: cs) || hasSpecSchemeUrl cs


/-- Absence of all corruption markers named by the repair contract: no C1
control characters, no `Â`/`â` lead sequences, no `ð` lead pattern (all three
are what the detection regex matches), and no NBSP mis-rendering (the two
literal sequences the fallback replacements rewrite). -/
def cleanOfMarkers (x : List Char) : Prop :=
  mojibakeDetect x = false ∧ hasPair 'Â' '\u00A0' x = false ∧ hasPair 'Â' ' ' x = false

/-- Characters whose presence can make the normalization chain interact with
itself across passes: the C1 block and mojibake lead bytes (repair), `&`
(entity decoding), `/` (URL removal), control characters, and which keep the
ellipsis collapse quiet when at most one period is present. -/
def idemSafeChar (c : Char) : Bool :=
  !(0x80 ≤ c.toNat && c.toNat ≤ 0x9F) && !(c == 'Â') && !(c == 'â') &&
  !(c == 'ð') && !(c == '&') && !(c == '/') && !ctrlChar c

/-- Input class on which the normalization chain will be proved idempotent. -/
def idemSafe (x : List Char) : Prop :=
  (∀ c ∈ x, idemSafeChar c = true) ∧ x.count '.' ≤ 1

/-- Scenario A request: sourceText "A vendor changes partners.", title
"Vendor News", angle "leadership", maxWords 50. -/
def reqScenarioA : ThoughtPostRequest :=
  ⟨("A vendor changes partners.".data), ("professional".data),
    some ("leadership".data), 50, some ("Vendor News".data), none⟩

/-- A minimal valid request used for the orchestrator counterexample and
witness. -/
def reqPlain : ThoughtPostRequest :=
  ⟨("A topic.".data), ("professional".data), none, 100, none, none⟩

/-- C2: the specification claims `enforceShape` is total and never raises; in
the source, line 316 of `_enforce_shape` reads the local variable `body`
before any assignment to it, so every call raises `UnboundLocalError`
instead of returning a string. -/
theorem enforceShape_always_raises (t : List Char) (maxWords : Nat)
    (angle : Option (List Char)) (topics : List (List Char))
    (sourceTitle : Option (List Char)) (terms : List (List Char)) :
    enforceShape t maxWords angle topics sourceTitle terms =
      Except.error unboundLocalBody := rfl

/-- C3: the word-budget step of `_enforce_shape` (lines 349-352) is
unreachable — on a body of six words with `max_words = 3` the call raises
`UnboundLocalError` at line 316 instead of returning a body truncated to
three words. -/
theorem enforceShape_budget_unreachable :
    enforceShape ("alpha beta gamma delta epsilon zeta".data) 3
      (some ("career".data)) [] none [] = Except.error unboundLocalBody := rfl

/-- Helper: a two-character replacement changes nothing when the pattern does
not occur. -/
theorem replace2_id (p₁ p₂ : Char) (r l : List Char)
    (h : hasPair p₁ p₂ l = false) : replace2 p₁ p₂ r l = l := by
  induction l with
  | nil => rfl
  | cons c cs ih =>
    cases cs with
    | nil => rfl
    | cons c₂ rest =>
      rw [hasPair] at h
      simp only [Bool.or_eq_false_iff, Bool.and_eq_false_iff] at h
      rw [replace2, if_neg, ih h.2]
      rcases h.1 with h₁ | h₁ <;> simp [decide_eq_false_iff_not] at h₁ <;>
        exact fun hc => h₁ (by simp [hc])

/-- Helper: the repair stage is the identity on strings free of the
corruption markers. -/
theorem repairStage_id_aux (x : List Char) (h : cleanOfMarkers x) :
    repairStage x = x := by
  obtain ⟨hdet, hn₁, hn₂⟩ := h
  unfold repairStage
  by_cases hx : x = []
  · simp [hx]
  · rw [if_neg hx]
    simp only [hdet, Bool.false_eq_true, if_false]
    rw [replace2_id _ _ _ _ hn₁, replace2_id _ _ _ _ hn₂]

/-- C6: encoding repair is a no-op on clean input — when a string carries
none of the corruption markers (detection regex silent, no NBSP
mis-rendering), the repair stage returns it unchanged. -/
theorem repairStage_clean_id (x : List Char) (h : cleanOfMarkers x) :
    repairStage x = x := repairStage_id_aux x h

/-- Witness for C6 at a concrete clean string. -/
theorem repairStage_clean_id_witness :
    cleanOfMarkers ("A clean line.".data) ∧
      repairStage ("A clean line.".data) = ("A clean line.".data) :=
  ⟨⟨by decide, by decide, by decide⟩,
    repairStage_clean_id ("A clean line.".data) ⟨by decide, by decide, by decide⟩⟩

/-- C8: scenario A — with the generation call unavailable the pipeline
returns the fallback post: headline "Vendor News: A vendor changes
partners.", three bullet lines, and a closing question line ending in 🤔. -/
theorem scenarioA_fallback_shape :
    (splitNl (generateThoughtpost reqScenarioA (Except.error "unavailable"))).head? =
        some ("Vendor News: A vendor changes partners.".data) ∧
    ((splitNl (generateThoughtpost reqScenarioA (Except.error "unavailable"))).filter
        (fun ln => startsW ("• ".data) ln)).length = 3 ∧
    (generateThoughtpost reqScenarioA (Except.error "unavailable")).getLast? =
        some '🤔' := by decide

/-- C9: the fallback generator depends only on the request's source text and
title — two calls with identical `text` and `source_title` give byte-identical
output whatever the other fields are. -/
theorem fallback_deterministic (r₁ r₂ : ThoughtPostRequest)
    (ht : r₁.text = r₂.text) (hs : r₁.source_title = r₂.source_title) :
    fallbackFromReq r₁ = fallbackFromReq r₂ := by
  unfold fallbackFromReq
  rw [ht, hs]

/-- Witness for C9: identical text/title, different tone, angle, budget and
link. -/
theorem fallback_deterministic_witness :
    fallbackFromReq
        ⟨("Teams shift tools.".data), ("casual".data), none, 100,
          some ("Note".data), none⟩ =
      fallbackFromReq
        ⟨("Teams shift tools.".data), ("formal".data), some ("ops".data), 300,
          some ("Note".data), some ("http://l".data)⟩ :=
  fallback_deterministic _ _ rfl rfl

/-- C10: the mojibake round-trip repair never erases a non-empty text — it
stops before adopting an empty pass result. -/
theorem roundtrip_nonempty (s : List Char) (h : s ≠ []) :
    fixMojibakeRoundtrip s ≠ [] := by
  simp only [fixMojibakeRoundtrip]
  rw [if_neg h]
  split
  · exact h
  · next h₁ =>
    split
    · next =>
      push_neg at h₁
      exact h₁.1
    · next h₂ =>
      push_neg at h₂
      exact h₂.1

/-- Witness for C10 at a concrete one-character string. -/
theorem roundtrip_nonempty_witness : fixMojibakeRoundtrip ("a".data) ≠ [] :=
  roundtrip_nonempty _ (by decide)

/-- C7 counterexample: with no explicit tags, a body whose keyword scan
yields `#AI`, and a caller topic `#Zebra`, `_choose_tags` returns the caller
topic — `picks = topics[:3] or want or …` consults `detectedTopics` before
the keyword scan, not after as claimed. -/
theorem chooseTags_topics_shadow_scan :
    chooseTags ("the ai model shift".data) [("#Zebra".data)] ("leadership".data)
        [] false = [("#Zebra".data)] ∧
      scanWant (pyLower ("the ai model shift".data)) false = [("#AI".data)] := by
  decide

/-- Helper: `_choose_tags` with no surviving explicit tags reduces to the
`picks` chain. -/
theorem chooseTags_unfold (body : List Char) (topics : List (List Char))
    (angleKey : List Char) (baseTags : List (List Char)) (priv : Bool)
    (hbase : dedupStrip [] baseTags = []) :
    chooseTags body topics angleKey baseTags priv =
      pickTags [] 0
        (if topics.take 3 ≠ [] then topics.take 3
         else if scanWant (pyLower body) priv ≠ [] then scanWant (pyLower body) priv
         else angleDefaults angleKey) := by
  unfold chooseTags
  rw [hbase]
  simp

/-- C7 amended: when no explicit tags survive dedup, the caller's
`detectedTopics` take priority; the keyword scan (with the forced privacy
tag) is consulted only when they are absent, and the fixed angle table only
when the scan is empty too. -/
theorem chooseTags_priority (body : List Char) (topics : List (List Char))
    (angleKey : List Char) (baseTags : List (List Char)) (priv : Bool)
    (hbase : dedupStrip [] baseTags = []) :
    (topics ≠ [] → chooseTags body topics angleKey baseTags priv =
        pickTags [] 0 (topics.take 3)) ∧
    (topics = [] → scanWant (pyLower body) priv ≠ [] →
        chooseTags body topics angleKey baseTags priv =
        pickTags [] 0 (scanWant (pyLower body) priv)) ∧
    (topics = [] → scanWant (pyLower body) priv = [] →
        chooseTags body topics angleKey baseTags priv =
        pickTags [] 0 (angleDefaults angleKey)) := by
  refine ⟨?_, ?_, ?_⟩
  · intro htop
    have h₃ : topics.take 3 ≠ [] := by
      cases topics with
      | nil => exact absurd rfl htop
      | cons a tl => simp [List.take]
    rw [chooseTags_unfold body topics angleKey baseTags priv hbase, if_pos h₃]
  · intro htop hwant
    rw [chooseTags_unfold body topics angleKey baseTags priv hbase, htop]
    rw [if_neg (by simp), if_pos hwant]
  · intro htop hwant
    rw [chooseTags_unfold body topics angleKey baseTags priv hbase, htop]
    rw [if_neg (by simp), if_neg (by simp [hwant])]

/-- Witness for C7 amended: hypotheses discharged at concrete inputs. -/
theorem chooseTags_priority_witness :
    dedupStrip [] [] = [] ∧
      chooseTags ("plain words".data) [("#T1".data)] [] [] false =
        pickTags [] 0 ([("#T1".data)].take 3) :=
  ⟨by decide,
    (chooseTags_priority ("plain words".data) [("#T1".data)] [] [] false
      (by decide)).1 (by decide)⟩

/-- Helper: a string containing a non-whitespace character does not strip to
empty. -/
theorem pyStrip_ne_nil (c : Char) (l : List Char) (hc : pyIsSpace c = false)
    (h : c ∈ l) : pyStrip l ≠ [] := by
  have hmem : c ∈ trimStart l := by
    have hsplit := List.takeWhile_append_dropWhile pyIsSpace l
    rcases List.mem_append.mp (hsplit ▸ h) with h₁ | h₂
    · exact absurd (List.mem_takeWhile_imp h₁) (by simp [hc])
    · exact h₂
  intro hnil
  have : c ∈ (trimStart l).reverse.dropWhile pyIsSpace := by
    have hsplit := List.takeWhile_append_dropWhile pyIsSpace (trimStart l).reverse
    rcases List.mem_append.mp
        (hsplit ▸ (List.mem_reverse.mpr hmem)) with h₁ | h₂
    · exact absurd (List.mem_takeWhile_imp h₁) (by simp [hc])
    · exact h₂
  have : (trimStart l).reverse.dropWhile pyIsSpace ≠ [] := List.ne_nil_of_mem this
  apply this
  have := congrArg List.reverse hnil
  simpa [pyStrip, trimEnd] using this

/-- Helper: joining keeps the characters of every line. -/
theorem mem_joinNl (ls : List (List Char)) (x : List Char) (hx : x ∈ ls)
    (c : Char) (hc : c ∈ x) : c ∈ joinNl ls := by
  induction ls with
  | nil => cases hx
  | cons a tl ih =>
    cases tl with
    | nil =>
      rcases List.mem_singleton.mp hx with rfl
      simpa [joinNl, List.intercalate] using hc
    | cons b t =>
      have hstep : joinNl (a :: b :: t) = a ++ '\n' :: joinNl (b :: t) := rfl
      rw [hstep]
      rcases hx with _ | hx'
      · exact List.mem_append.mpr (Or.inl hc)
      · next h' => exact List.mem_append.mpr (Or.inr (List.mem_cons_of_mem _ (ih h')))

/-- Helper: the fallback post always contains its bullet template, hence is
never empty. -/
theorem fallback_nonempty (r : ThoughtPostRequest) : fallbackFromReq r ≠ [] := by
  simp only [fallbackFromReq]
  apply pyStrip_ne_nil '•' _ (by decide)
  exact mem_joinNl _
    ("• ✅ What changed: Summarize the impact and scope so priorities don’t drift.".data)
    (by simp [fallbackBullets]) '•' (by decide)

/-- C1 counterexample: for the valid request `reqPlain` with the generation
call failing, the returned draft contains no `#` at all, so it cannot end in
1-3 hashtags — the orchestrator returns the fallback without running shape
enforcement, so the ShapedPost invariants are not guaranteed. -/
theorem orchestrator_shape_violated :
    validRequest reqPlain ∧
      (generateThoughtpost reqPlain (Except.error "provider down")).count '#' = 0 :=
  ⟨⟨by decide, by decide, by decide⟩, by decide⟩

/-- C1 amended: for every valid request and every outcome of the generation
call (including failure), the orchestrator returns a non-empty draft and
never raises; the draft is not guaranteed to satisfy the ShapedPost
invariants. -/
theorem orchestrator_totality (req : ThoughtPostRequest)
    (gen : Except String (List Char)) (hreq : validRequest req) :
    generateThoughtpost req gen ≠ [] := by
  simp only [generateThoughtpost]
  split
  · exact fallback_nonempty req
  · next h => exact h

/-- Witness for C1 amended at a concrete valid request with a failing
generation call. -/
theorem orchestrator_totality_witness :
    validRequest reqPlain ∧
      generateThoughtpost reqPlain (Except.error "timeout") ≠ [] :=
  ⟨⟨by decide, by decide, by decide⟩,
    orchestrator_totality reqPlain (Except.error "timeout")
      ⟨by decide, by decide, by decide⟩⟩

/-- Helper: matching a literal consumes exactly its length. -/
theorem lead_rest_length (pat : List Char) : ∀ l r, lead pat l = some r →
    r.length + pat.length = l.length := by
  induction pat with
  | nil =>
    intro l r h
    simp only [lead, Option.some_inj] at h
    subst h
    simp
  | cons p ps ih =>
    intro l r h
    cases l with
    | nil => simp [lead] at h
    | cons c cs =>
      rw [lead] at h
      by_cases hpc : p = c
      · rw [if_pos hpc] at h
        have := ih cs r h
        simp only [List.length_cons]
        omega
      · rw [if_neg hpc] at h; cases h

/-- Helper: a literal match extends along an appended tail. -/
theorem lead_append_ext (pat : List Char) : ∀ s r e, lead pat s = some r →
    lead pat (s ++ e) = some (r ++ e) := by
  induction pat with
  | nil =>
    intro s r e h
    simp only [lead, Option.some_inj] at h
    subst h
    rfl
  | cons p ps ih =>
    intro s r e h
    cases s with
    | nil => simp [lead] at h
    | cons c cs =>
      rw [lead] at h
      by_cases hpc : p = c
      · rw [if_pos hpc] at h
        rw [List.cons_append, lead, if_pos hpc]
        exact ih cs r e h
      · rw [if_neg hpc] at h; cases h

/-- Helper: appending one character to the literal peels one character off
the remainder. -/
theorem lead_snoc (pat : List Char) (d : Char) : ∀ l r,
    (lead (pat ++ [d]) l = some r ↔ lead pat l = some (d :: r)) := by
  induction pat with
  | nil =>
    intro l r
    cases l with
    | nil => simp [lead]
    | cons c cs =>
      simp only [List.nil_append, lead, Option.some_inj]
      by_cases hdc : d = c
      · subst hdc; simp [lead]
      · simp [if_neg hdc, hdc]
        exact fun hcd _ => hdc hcd.symm
  | cons p ps ih =>
    intro l r
    cases l with
    | nil => simp [lead]
    | cons c cs =>
      simp only [List.cons_append, lead]
      by_cases hpc : p = c
      · rw [if_pos hpc, if_pos hpc]
        exact ih cs r
      · rw [if_neg hpc, if_neg hpc]
        simp

/-- Helper: the URL scanner maps the empty list to itself at any fuel. -/
theorem urlSubF_nil : ∀ n, urlSubF n [] = []
  | 0 => rfl
  | _ + 1 => rfl

/-- Helper: no URL match can start at a whitespace character. -/
theorem urlMatch_space_head (w : Char) (t : List Char) (hw : pyIsSpace w = true) :
    urlMatch (w :: t) = none := by
  have hne : ('h' : Char) ≠ w := by
    intro h
    rw [← h] at hw
    exact absurd hw (by decide)
  unfold urlMatch startsPat
  rw [show ("https://".data) = 'h' :: ("ttps://".data) from rfl,
    show ("http://".data) = 'h' :: ("ttp://".data) from rfl]
  simp [lead, hne]

/-- Helper: the URL scanner keeps a leading whitespace character. -/
theorem urlSubF_space_head (n : Nat) (w : Char) (t : List Char)
    (hw : pyIsSpace w = true) : ∃ tail, urlSubF n (w :: t) = w :: tail := by
  cases n with
  | zero => exact ⟨t, rfl⟩
  | succ n =>
    refine ⟨urlSubF n t, ?_⟩
    simp only [urlSubF, urlMatch_space_head w t hw]

/-- Helper: dropping a pattern shortens or keeps the length. -/
theorem dropWhile_length_le (p : Char → Bool) (l : List Char) :
    (l.dropWhile p).length ≤ l.length := by
  induction l with
  | nil => simp
  | cons c cs ih =>
    simp only [List.dropWhile]
    split
    · exact Nat.le_trans ih (by simp)
    · simp

/-- Helper: what `dropWhile` returns is empty or headed by a failing
character. -/
theorem dropWhile_head_not (p : Char → Bool) (l : List Char) :
    l.dropWhile p = [] ∨ ∃ d t, l.dropWhile p = d :: t ∧ p d = false := by
  induction l with
  | nil => exact Or.inl rfl
  | cons c cs ih =>
    simp only [List.dropWhile]
    split
    · exact ih
    · next hpc => exact Or.inr ⟨c, cs, rfl, by simpa using hpc⟩

/-- Helper: a removed URL leaves whitespace (or nothing) at the junction, and
consumes at least the pattern length. -/
theorem urlRest_bound (pat l r : List Char) (hp : startsPat pat l = true)
    (h : ((lead pat l).getD []).dropWhile (fun d => !pyIsSpace d) = r) :
    r.length + pat.length ≤ l.length ∧
      (r = [] ∨ ∃ w t, r = w :: t ∧ pyIsSpace w = true) := by
  unfold startsPat at hp
  cases hl : lead pat l with
  | none => rw [hl] at hp; cases hp
  | some m =>
    rw [hl] at hp
    cases m with
    | nil => simp at hp
    | cons d rest =>
      rw [hl] at h
      simp only [Option.getD_some] at h
      constructor
      · have hlen := lead_rest_length pat l (d :: rest) hl
        have hdrop := dropWhile_length_le (fun d => !pyIsSpace d) (d :: rest)
        rw [h] at hdrop
        simp only [List.length_cons] at hlen hdrop
        omega
      · rcases dropWhile_head_not (fun d => !pyIsSpace d) (d :: rest) with h' | ⟨w, t, h', hw⟩
        · left; rw [← h]; exact h'
        · right
          refine ⟨w, t, by rw [← h]; exact h', ?_⟩
          simpa using hw

/-- Helper: a URL match starts with one of the two scheme literals followed
by a non-whitespace character. -/
theorem urlMatch_isSome_iff (l : List Char) :
    (urlMatch l).isSome =
      (startsPat ("https://".data) l || startsPat ("http://".data) l) := by
  unfold urlMatch
  split_ifs with h₁ h₂
  · simp [h₁]
  · simp [h₁, h₂]
  · simp [h₁, h₂]

/-- Helper: a URL match consumes at least seven characters. -/
theorem urlMatch_rest_length (l r : List Char) (h : urlMatch l = some r) :
    r.length + 7 ≤ l.length := by
  unfold urlMatch at h
  split_ifs at h with h₁ h₂
  · injection h with h'
    have hb := (urlRest_bound _ l r h₁ h').1
    have h8 : ("https://".data).length = 8 := by decide
    omega
  · injection h with h'
    have hb := (urlRest_bound _ l r h₂ h').1
    have h7 : ("http://".data).length = 7 := by decide
    omega

/-- Helper: the remainder a URL match leaves is empty or starts with
whitespace (the `\S+` run is maximal). -/
theorem urlMatch_rest_shape (l r : List Char) (h : urlMatch l = some r) :
    r = [] ∨ ∃ w t, r = w :: t ∧ pyIsSpace w = true := by
  unfold urlMatch at h
  split_ifs at h with h₁ h₂
  · injection h with h'
    exact (urlRest_bound _ l r h₁ h').2
  · injection h with h'
    exact (urlRest_bound _ l r h₂ h').2

/-- Helper: a non-whitespace literal found at the head of the URL scanner's
output was already at the head of its input. -/
theorem lead_urlSubF (n : Nat) : ∀ (cs pat r : List Char), pat ≠ [] →
    (∀ c ∈ pat, pyIsSpace c = false) → lead pat (urlSubF n cs) = some r →
    ∃ r', lead pat cs = some r' := by
  induction n with
  | zero => exact fun cs pat r _ _ h => ⟨r, h⟩
  | succ n ih =>
    intro cs pat r hne hns h
    cases cs with
    | nil =>
      rw [show urlSubF (n + 1) [] = [] from rfl] at h
      exact ⟨r, h⟩
    | cons c cs' =>
      cases hm : urlMatch (c :: cs') with
      | some rest =>
        simp only [urlSubF, hm] at h
        rcases urlMatch_rest_shape _ _ hm with hrest | ⟨w, t, hrest, hw⟩
        · subst hrest
          rw [urlSubF_nil] at h
          cases pat with
          | nil => exact absurd rfl hne
          | cons p ps => simp [lead] at h
        · subst hrest
          obtain ⟨tail, htail⟩ := urlSubF_space_head n w t hw
          rw [htail] at h
          cases pat with
          | nil => exact absurd rfl hne
          | cons p ps =>
            rw [lead] at h
            by_cases hpw : p = w
            · have hp : pyIsSpace p = false := hns p (List.mem_cons_self p ps)
              rw [hpw, hw] at hp
              cases hp
            · rw [if_neg hpw] at h; cases h
      | none =>
        simp only [urlSubF, hm] at h
        cases pat with
        | nil => exact absurd rfl hne
        | cons p ps =>
          rw [lead] at h
          by_cases hpc : p = c
          · rw [if_pos hpc] at h
            cases ps with
            | nil =>
              exact ⟨cs', by rw [lead, if_pos hpc]; rfl⟩
            | cons q qs =>
              obtain ⟨r', hr'⟩ := ih cs' (q :: qs) r (by simp)
                (fun d hd => hns d (List.mem_cons_of_mem _ hd)) h
              exact ⟨r', by rw [lead, if_pos hpc]; exact hr'⟩
          · rw [if_neg hpc] at h; cases h

/-- Helper: a scheme hit at the head of `c ::` the scanner's output implies
one at the head of `c ::` the scanner's input. -/
theorem startsPat_cons_urlSubF (n : Nat) (c : Char) (cs pat : List Char)
    (hpat : pat ≠ []) (hns : ∀ d ∈ pat, pyIsSpace d = false)
    (h : startsPat pat (c :: urlSubF n cs) = true) :
    startsPat pat (c :: cs) = true := by
  unfold startsPat at h ⊢
  cases pat with
  | nil => exact absurd rfl hpat
  | cons p ps =>
    rw [lead] at h
    by_cases hpc : p = c
    · rw [if_pos hpc] at h
      cases hl : lead ps (urlSubF n cs) with
      | none => rw [hl] at h; cases h
      | some m =>
        rw [hl] at h
        cases m with
        | nil => simp at h
        | cons d rest =>
          have hd : pyIsSpace d = false := by simpa using h
          have hsnoc : lead (ps ++ [d]) (urlSubF n cs) = some rest :=
            (lead_snoc ps d (urlSubF n cs) rest).mpr hl
          obtain ⟨r', hr'⟩ := lead_urlSubF n cs (ps ++ [d]) rest (by simp)
            (fun e he => by
              rcases List.mem_append.mp he with h₁ | h₂
              · exact hns e (List.mem_cons_of_mem _ h₁)
              · rw [List.mem_singleton.mp h₂]; exact hd) hsnoc
          have hcons : lead ps cs = some (d :: r') := (lead_snoc ps d cs r').mp hr'
          rw [lead, if_pos hpc, hcons]
          simpa using hd
    · rw [if_neg hpc] at h; cases h

/-- Helper: positions never gain a URL match from earlier removals. -/
theorem urlMatch_none_cons (n : Nat) (c : Char) (cs : List Char)
    (hm : urlMatch (c :: cs) = none) : urlMatch (c :: urlSubF n cs) = none := by
  cases hn : urlMatch (c :: urlSubF n cs) with
  | none => rfl
  | some r =>
    exfalso
    have hsome : (urlMatch (c :: urlSubF n cs)).isSome = true := by rw [hn]; rfl
    have hnone : (urlMatch (c :: cs)).isSome = false := by rw [hm]; rfl
    rw [urlMatch_isSome_iff] at hsome hnone
    rw [Bool.or_eq_false_iff] at hnone
    rcases Bool.or_eq_true_iff.mp hsome with h | h
    · rw [startsPat_cons_urlSubF n c cs _ (by decide) (by decide) h] at hnone
      exact Bool.true_eq_false.mp hnone.1
    · rw [startsPat_cons_urlSubF n c cs _ (by decide) (by decide) h] at hnone
      exact Bool.true_eq_false.mp hnone.2

/-- Helper: the URL scanner's output has no match at any position. -/
theorem urlSubF_no_url : ∀ (n : Nat) (l : List Char), l.length ≤ n →
    hasUrl (urlSubF n l) = false := by
  intro n
  induction n with
  | zero =>
    intro l hl
    have : l = [] := List.eq_nil_of_length_eq_zero (Nat.le_zero.mp hl)
    subst this
    decide
  | succ n ih =>
    intro l hl
    cases l with
    | nil =>
      rw [show urlSubF (n + 1) [] = [] from rfl]
      decide
    | cons c cs =>
      cases hm : urlMatch (c :: cs) with
      | some rest =>
        have hlen := urlMatch_rest_length _ _ hm
        simp only [List.length_cons] at hl hlen
        simp only [urlSubF, hm]
        exact ih rest (by omega)
      | none =>
        simp only [urlSubF, hm, hasUrl]
        rw [urlMatch_none_cons n c cs hm]
        simp only [List.length_cons] at hl
        simp [ih cs (by omega)]

/-- Helper: a scheme hit survives appending a tail. -/
theorem startsPat_append (pat s e : List Char) (h : startsPat pat s = true) :
    startsPat pat (s ++ e) = true := by
  unfold startsPat at h ⊢
  cases hl : lead pat s with
  | none => rw [hl] at h; cases h
  | some m =>
    rw [hl] at h
    cases m with
    | nil => simp at h
    | cons d rest =>
      rw [lead_append_ext pat s (d :: rest) e hl]
      simpa using h

/-- Helper: a URL match survives appending a tail. -/
theorem urlMatch_isSome_append (s e : List Char)
    (h : (urlMatch s).isSome = true) : (urlMatch (s ++ e)).isSome = true := by
  rw [urlMatch_isSome_iff] at h ⊢
  rcases Bool.or_eq_true_iff.mp h with h' | h'
  · exact Bool.or_eq_true_iff.mpr (Or.inl (startsPat_append _ _ _ h'))
  · exact Bool.or_eq_true_iff.mpr (Or.inr (startsPat_append _ _ _ h'))

/-- Helper: a URL occurrence survives appending a tail. -/
theorem hasUrl_append (a e : List Char) (h : hasUrl a = true) :
    hasUrl (a ++ e) = true := by
  induction a with
  | nil => exact absurd h (by decide)
  | cons c cs ih =>
    rw [hasUrl, Bool.or_eq_true_iff] at h
    rw [List.cons_append, hasUrl]
    rcases h with h' | h'
    · refine Bool.or_eq_true_iff.mpr (Or.inl ?_)
      have := urlMatch_isSome_append (c :: cs) e h'
      simpa using this
    · exact Bool.or_eq_true_iff.mpr (Or.inr (ih h'))

/-- Helper: URL freedom is preserved by dropping a left part. -/
theorem hasUrl_dropWhile (p : Char → Bool) (l : List Char)
    (h : hasUrl l = false) : hasUrl (l.dropWhile p) = false := by
  induction l with
  | nil => simpa using h
  | cons c cs ih =>
    rw [hasUrl, Bool.or_eq_false_iff] at h
    simp only [List.dropWhile]
    split
    · exact ih h.2
    · rw [hasUrl, Bool.or_eq_false_iff]
      exact h

/-- Helper: a string is its right trim plus trailing whitespace. -/
theorem split_trimEnd (l : List Char) :
    ∃ ws, l = trimEnd l ++ ws ∧ ∀ c ∈ ws, pyIsSpace c = true := by
  refine ⟨(l.reverse.takeWhile pyIsSpace).reverse, ?_, ?_⟩
  · conv_lhs =>
      rw [← List.reverse_reverse l,
        ← List.takeWhile_append_dropWhile pyIsSpace l.reverse]
    rw [List.reverse_append]
    rfl
  · intro c hc
    exact List.mem_takeWhile_imp (List.mem_reverse.mp hc)

/-- Helper: URL freedom is preserved by the right trim. -/
theorem hasUrl_trimEnd (l : List Char) (h : hasUrl l = false) :
    hasUrl (trimEnd l) = false := by
  cases hu : hasUrl (trimEnd l) with
  | false => rfl
  | true =>
    obtain ⟨ws, hsplit, _⟩ := split_trimEnd l
    have hh := hasUrl_append (trimEnd l) ws hu
    rw [← hsplit] at hh
    rw [hh] at h
    cases h

/-- Helper: URL freedom is preserved by `str.strip()`. -/
theorem hasUrl_pyStrip (l : List Char) (h : hasUrl l = false) :
    hasUrl (pyStrip l) = false :=
  hasUrl_trimEnd _ (hasUrl_dropWhile _ _ h)

/-- C5 counterexample: an `ftp://` URL — a "scheme://non-whitespace"
substring in the spec's sense — survives both `_cleanup` and
`_light_cleanup` unchanged, because the removal regex only knows `http` and
`https`. -/
theorem cleanup_keeps_ftp_url :
    hasSpecSchemeUrl (cleanup ("see ftp://host/a".data)) = true ∧
      hasSpecSchemeUrl (lightCleanup ("see ftp://host/a".data)) = true := by
  decide

/-- C5 amended: no substring matching `https?://` followed by a non-empty
non-whitespace run survives `_cleanup` or `_light_cleanup`, for every input
(other schemes are not removed). -/
theorem cleanup_no_http_urls (x : List Char) :
    hasUrl (cleanup x) = false ∧ hasUrl (lightCleanup x) = false := by
  constructor
  · unfold cleanup urlSub
    exact hasUrl_pyStrip _ (urlSubF_no_url _ _ le_rfl)
  · unfold lightCleanup
    split
    · decide
    · unfold urlSub
      exact hasUrl_pyStrip _ (urlSubF_no_url _ _ le_rfl)

/-- Helper: no pair can occur when its first character is absent. -/
theorem hasPair_of_no_first (p₁ p₂ : Char) (l : List Char)
    (h : ∀ c ∈ l, c ≠ p₁) : hasPair p₁ p₂ l = false := by
  induction l with
  | nil => rfl
  | cons c cs ih =>
    cases cs with
    | nil => rfl
    | cons c₂ rest =>
      rw [hasPair, Bool.or_eq_false_iff]
      refine ⟨?_, ih (fun d hd => h d (List.mem_cons_of_mem _ hd))⟩
      have := h c (List.mem_cons_self c _)
      simp [this]

/-- Helper: the detection regex is silent when no C1 characters and no lead
characters are present. -/
theorem mojibakeDetect_false (l : List Char)
    (h : ∀ c ∈ l, idemSafeChar c = true) : mojibakeDetect l = false := by
  induction l with
  | nil => rfl
  | cons c cs ih =>
    have hc := h c (List.mem_cons_self c _)
    unfold idemSafeChar at hc
    simp only [Bool.and_eq_true, Bool.not_eq_true', beq_eq_false_iff_ne, ne_eq] at hc
    rw [mojibakeDetect, Bool.or_eq_false_iff, Bool.or_eq_false_iff]
    refine ⟨⟨hc.1.1.1.1.1.1, ?_⟩, ih (fun d hd => h d (List.mem_cons_of_mem _ hd))⟩
    unfold mojibakeLead
    cases cs with
    | nil => rfl
    | cons d rest =>
      have h₁ := hc.1.1.1.1.1.2
      have h₂ := hc.1.1.1.1.2
      have h₃ := hc.1.1.1.2
      simp [h₁, h₂, h₃]

/-- Helper: the characters of the safe class carry none of the repair
markers. -/
theorem idemSafe_clean (x : List Char) (h : ∀ c ∈ x, idemSafeChar c = true) :
    cleanOfMarkers x := by
  have hno : ∀ c ∈ x, c ≠ 'Â' := by
    intro c hc
    have := h c hc
    unfold idemSafeChar at this
    simp only [Bool.and_eq_true, Bool.not_eq_true', beq_eq_false_iff_ne, ne_eq] at this
    exact this.1.1.1.1.1.2
  exact ⟨mojibakeDetect_false x h, hasPair_of_no_first _ _ _ hno,
    hasPair_of_no_first _ _ _ hno⟩

/-- Helper: entity decoding is the identity without an ampersand. -/
theorem pyUnescapeF_id (n : Nat) : ∀ l, (∀ c ∈ l, c ≠ '&') →
    pyUnescapeF n l = l := by
  induction n with
  | zero => intro l _; rfl
  | succ n ih =>
    intro l h
    cases l with
    | nil => rfl
    | cons c cs =>
      have hc : c ≠ '&' := h c (List.mem_cons_self c _)
      show pyUnescapeF (n + 1) (c :: cs) = c :: cs
      rw [pyUnescapeF, if_neg hc, ih cs (fun d hd => h d (List.mem_cons_of_mem _ hd))]

/-- Helper: consuming `\s*\.` removes one period from the count. -/
theorem dotStep_count (l r : List Char) (h : dotStep l = some r) :
    r.count '.' + 1 ≤ l.count '.' := by
  unfold dotStep at h
  split at h
  · next c r' hd =>
    split at h
    · next hc =>
      injection h with h
      subst h
      subst hc
      have hsub : List.Sublist ('.' :: r') l := hd ▸ List.dropWhile_sublist pyIsSpace
      have hs := hsub.count_le '.'
      simp only [List.count_cons_self] at hs
      omega
    · next => cases h
  · next => cases h

/-- Helper: an ellipsis match needs two periods. -/
theorem ellipsisMatch_two_dots (l : List Char)
    (h : (ellipsisMatch l).isSome = true) : 2 ≤ l.count '.' := by
  unfold ellipsisMatch at h
  split at h
  · simp at h
  · next r₁ h₁ =>
    split at h
    · simp at h
    · next r₃ h₂ =>
      have c₁ := dotStep_count l r₁ h₁
      have c₂ := dotStep_count r₁ r₃ h₂
      omega

/-- Helper: at most one period means no ellipsis match anywhere. -/
theorem hasEllipsis_false_of_count (l : List Char) (h : l.count '.' ≤ 1) :
    hasEllipsis l = false := by
  induction l with
  | nil => decide
  | cons c cs ih =>
    rw [hasEllipsis, Bool.or_eq_false_iff]
    constructor
    · cases hm : (ellipsisMatch (c :: cs)).isSome with
      | false => rfl
      | true =>
        have := ellipsisMatch_two_dots _ hm
        omega
    · refine ih ?_
      have : cs.count '.' ≤ (c :: cs).count '.' := by
        by_cases hc : c = '.' <;> simp [hc, List.count_cons]
      omega

/-- Helper: one unfolding step of the ellipsis scanner. -/
theorem ellipsisSubF_step (n : Nat) (c : Char) (cs : List Char) :
    ellipsisSubF (n + 1) (c :: cs) =
      match ellipsisMatch (c :: cs) with
      | some rest => '.' :: ' ' :: ellipsisSubF n rest
      | none => c :: ellipsisSubF n cs := rfl

/-- Helper: the ellipsis scanner is the identity when nothing matches. -/
theorem ellipsisSubF_id (n : Nat) : ∀ l, hasEllipsis l = false →
    ellipsisSubF n l = l := by
  induction n with
  | zero => intro l _; rfl
  | succ n ih =>
    intro l h
    cases l with
    | nil => rfl
    | cons c cs =>
      rw [hasEllipsis, Bool.or_eq_false_iff] at h
      cases hm : ellipsisMatch (c :: cs) with
      | some r => rw [hm] at h; simp at h
      | none =>
        rw [ellipsisSubF_step, hm, ih cs h.2]

/-- Helper: a literal match only uses characters of the text. -/
theorem lead_subset (pat : List Char) : ∀ l r, lead pat l = some r →
    ∀ c ∈ pat, c ∈ l := by
  induction pat with
  | nil => intro l r _ c hc; cases hc
  | cons p ps ih =>
    intro l r h c hc
    cases l with
    | nil => simp [lead] at h
    | cons a as =>
      rw [lead] at h
      by_cases hpa : p = a
      · rcases List.mem_cons.mp hc with rfl | hc'
        · exact hpa ▸ List.mem_cons_self a as
        · rw [if_pos hpa] at h
          exact List.mem_cons_of_mem _ (ih as r h c hc')
      · rw [if_neg hpa] at h; cases h

/-- Helper: a URL match needs a slash. -/
theorem hasUrl_false_of_no_slash (l : List Char) (h : ∀ c ∈ l, c ≠ '/') :
    hasUrl l = false := by
  induction l with
  | nil => decide
  | cons c cs ih =>
    rw [hasUrl, Bool.or_eq_false_iff]
    constructor
    · cases hm : urlMatch (c :: cs) with
      | none => rfl
      | some r =>
        exfalso
        have hsome : (urlMatch (c :: cs)).isSome = true := by rw [hm]; rfl
        rw [urlMatch_isSome_iff] at hsome
        have hslash : ('/' : Char) ∈ (c :: cs) := by
          rcases Bool.or_eq_true_iff.mp hsome with h' | h'
          · cases hl : lead ("https://".data) (c :: cs) with
            | none => unfold startsPat at h'; rw [hl] at h'; simp at h'
            | some m => exact lead_subset _ _ _ hl '/' (by decide)
          · cases hl : lead ("http://".data) (c :: cs) with
            | none => unfold startsPat at h'; rw [hl] at h'; simp at h'
            | some m => exact lead_subset _ _ _ hl '/' (by decide)
        exact h '/' hslash rfl
    · exact ih (fun d hd => h d (List.mem_cons_of_mem _ hd))

/-- Helper: the URL scanner is the identity when nothing matches. -/
theorem urlSubF_id (n : Nat) : ∀ l, hasUrl l = false → urlSubF n l = l := by
  induction n with
  | zero => intro l _; rfl
  | succ n ih =>
    intro l h
    cases l with
    | nil => rfl
    | cons c cs =>
      rw [hasUrl, Bool.or_eq_false_iff] at h
      cases hm : urlMatch (c :: cs) with
      | some r => rw [hm] at h; simp at h
      | none =>
        simp only [urlSubF, hm]
        rw [ih cs h.2]

/-- Helper: newline normalization of a non-CR head. -/
theorem newlineNorm_cons_ne (c : Char) (cs : List Char) (hc : c ≠ '\r') :
    newlineNorm (c :: cs) = c :: newlineNorm cs := by
  cases cs with
  | nil => simp [newlineNorm, hc]
  | cons d t => simp [newlineNorm, hc]

/-- Helper: newline normalization is the identity without carriage returns. -/
theorem newlineNorm_id (l : List Char) (h : ∀ c ∈ l, c ≠ '\r') :
    newlineNorm l = l := by
  induction l with
  | nil => rfl
  | cons c cs ih =>
    rw [newlineNorm_cons_ne c cs (h c (List.mem_cons_self c _)),
      ih (fun d hd => h d (List.mem_cons_of_mem _ hd))]

/-- Helper: newline normalization leaves no carriage returns. -/
theorem newlineNorm_no_cr : ∀ (n : Nat) (l : List Char), l.length ≤ n →
    ('\r' : Char) ∉ newlineNorm l := by
  intro n
  induction n with
  | zero =>
    intro l hl
    have : l = [] := List.eq_nil_of_length_eq_zero (Nat.le_zero.mp hl)
    subst this
    simp [newlineNorm]
  | succ n ih =>
    intro l hl
    cases l with
    | nil => simp [newlineNorm]
    | cons c cs =>
      simp only [List.length_cons] at hl
      cases cs with
      | nil =>
        by_cases hc : c = '\r'
        · subst hc; simp [newlineNorm]
        · simp only [newlineNorm, if_neg hc]
          intro hmem
          rcases List.mem_singleton.mp hmem with rfl
          exact hc rfl
      | cons d t =>
        simp only [List.length_cons] at hl
        by_cases hc : c = '\r'
        · subst hc
          by_cases hd : d = '\n'
          · subst hd
            simp only [newlineNorm, if_pos rfl]
            intro hmem
            rcases List.mem_cons.mp hmem with h' | h'
            · exact absurd h' (by decide)
            · exact ih t (by omega) h'
          · simp only [newlineNorm, if_pos rfl, if_neg hd]
            intro hmem
            rcases List.mem_cons.mp hmem with h' | h'
            · exact absurd h' (by decide)
            · exact ih (d :: t) (by simp; omega) h'
        · simp only [newlineNorm, if_neg hc]
          intro hmem
          rcases List.mem_cons.mp hmem with h' | h'
          · exact absurd h'.symm hc
          · exact ih (d :: t) (by simp; omega) h'

/-- Helper: newline normalization only introduces newline characters. -/
theorem newlineNorm_mem : ∀ (n : Nat) (l : List Char), l.length ≤ n →
    ∀ c ∈ newlineNorm l, c ∈ l ∨ c = '\n' := by
  intro n
  induction n with
  | zero =>
    intro l hl
    have : l = [] := List.eq_nil_of_length_eq_zero (Nat.le_zero.mp hl)
    subst this
    simp [newlineNorm]
  | succ n ih =>
    intro l hl
    cases l with
    | nil => simp [newlineNorm]
    | cons c cs =>
      simp only [List.length_cons] at hl
      cases cs with
      | nil =>
        by_cases hc : c = '\r'
        · subst hc
          simp [newlineNorm]
        · simp only [newlineNorm, if_neg hc]
          intro e he
          exact Or.inl he
      | cons d t =>
        simp only [List.length_cons] at hl
        by_cases hc : c = '\r'
        · subst hc
          by_cases hd : d = '\n'
          · subst hd
            simp only [newlineNorm, if_pos rfl]
            intro e he
            rcases List.mem_cons.mp he with rfl | h'
            · exact Or.inr rfl
            · rcases ih t (by omega) e h' with h₂ | h₂
              · exact Or.inl (by simp [h₂])
              · exact Or.inr h₂
          · simp only [newlineNorm, if_pos rfl, if_neg hd]
            intro e he
            rcases List.mem_cons.mp he with rfl | h'
            · exact Or.inr rfl
            · rcases ih (d :: t) (by simp; omega) e h' with h₂ | h₂
              · exact Or.inl (List.mem_cons_of_mem _ h₂)
              · exact Or.inr h₂
        · simp only [newlineNorm, if_neg hc]
          intro e he
          rcases List.mem_cons.mp he with rfl | h'
          · exact Or.inl (List.mem_cons_self e _)
          · rcases ih (d :: t) (by simp; omega) e h' with h₂ | h₂
            · exact Or.inl (List.mem_cons_of_mem _ h₂)
            · exact Or.inr h₂

/-- Helper: newline normalization does not add periods. -/
theorem newlineNorm_count_dot : ∀ (n : Nat) (l : List Char), l.length ≤ n →
    (newlineNorm l).count '.' ≤ l.count '.' := by
  intro n
  induction n with
  | zero =>
    intro l hl
    have : l = [] := List.eq_nil_of_length_eq_zero (Nat.le_zero.mp hl)
    subst this
    simp [newlineNorm]
  | succ n ih =>
    intro l hl
    cases l with
    | nil => simp [newlineNorm]
    | cons c cs =>
      simp only [List.length_cons] at hl
      cases cs with
      | nil =>
        by_cases hc : c = '\r'
        · subst hc; simp [newlineNorm, List.count_cons]
        · simp [newlineNorm, if_neg hc]
      | cons d t =>
        simp only [List.length_cons] at hl
        by_cases hc : c = '\r'
        · subst hc
          by_cases hd : d = '\n'
          · subst hd
            simp only [newlineNorm, if_pos rfl]
            have := ih t (by omega)
            simp only [List.count_cons]
            have hnd : (('\n' : Char) == '.') = false := by decide
            have hrd : (('\r' : Char) == '.') = false := by decide
            simp [hnd, hrd]
            omega
          · simp only [newlineNorm, if_pos rfl, if_neg hd]
            have := ih (d :: t) (by simp; omega)
            simp only [List.count_cons] at this ⊢
            have hnd : (('\n' : Char) == '.') = false := by decide
            have hrd : (('\r' : Char) == '.') = false := by decide
            simp [hnd, hrd] at this ⊢
            omega
        · simp only [newlineNorm, if_neg hc]
          have := ih (d :: t) (by simp; omega)
          simp only [List.count_cons] at this ⊢
          omega

/-- Helper: dropping nothing means the drop changed nothing. -/
theorem dropWhile_length_eq (p : Char → Bool) (l : List Char)
    (h : (l.dropWhile p).length = l.length) : l.dropWhile p = l := by
  induction l with
  | nil => rfl
  | cons c cs ih =>
    by_cases hc : p c
    · exfalso
      rw [List.dropWhile_cons_of_pos hc] at h
      have := dropWhile_length_le p cs
      simp only [List.length_cons] at h
      omega
    · exact List.dropWhile_cons_of_neg hc

/-- Helper: a fixed point of `dropWhile` has a failing head. -/
theorem dropWhile_fix_head (p : Char → Bool) (d : Char) (t : List Char)
    (h : List.dropWhile p (d :: t) = d :: t) : p d = false := by
  by_cases hp : p d
  · exfalso
    rw [List.dropWhile_cons_of_pos hp] at h
    have h₁ := congrArg List.length h
    have h₂ := dropWhile_length_le p t
    simp only [List.length_cons] at h₁
    omega
  · simpa using hp

/-- Helper: `dropWhile` is idempotent. -/
theorem dropWhile_idem (p : Char → Bool) (l : List Char) :
    (l.dropWhile p).dropWhile p = l.dropWhile p := by
  rcases dropWhile_head_not p l with h | ⟨d, t, h, hd⟩
  · rw [h]; rfl
  · rw [h]
    exact List.dropWhile_cons_of_neg (by simp [hd])

/-- Helper: the right trim is idempotent. -/
theorem trimEnd_idem (l : List Char) : trimEnd (trimEnd l) = trimEnd l := by
  unfold trimEnd
  rw [List.reverse_reverse, dropWhile_idem]

/-- Helper: stripping a right-trimmed, left-fixed string does nothing more. -/
theorem trimStart_trimEnd_fix (m : List Char) (hm : trimStart m = m) :
    trimStart (trimEnd m) = trimEnd m := by
  cases he : trimEnd m with
  | nil => rfl
  | cons d t =>
    obtain ⟨ws, hsplit, _⟩ := split_trimEnd m
    rw [he] at hsplit
    have hd : pyIsSpace d = false := by
      apply dropWhile_fix_head pyIsSpace d (t ++ ws)
      have : m = d :: (t ++ ws) := by rw [hsplit]; simp
      rw [← this]
      unfold trimStart at hm
      rw [this] at hm
      rw [this]
      exact hm
    exact List.dropWhile_cons_of_neg (by simp [hd])

/-- Helper: `str.strip()` is idempotent. -/
theorem pyStrip_idem (l : List Char) : pyStrip (pyStrip l) = pyStrip l := by
  unfold pyStrip
  rw [trimStart_trimEnd_fix (trimStart l) (dropWhile_idem pyIsSpace l),
    trimEnd_idem]

/-- Helper: stripping keeps a sublist. -/
theorem pyStrip_sublist (l : List Char) : List.Sublist (pyStrip l) l := by
  unfold pyStrip trimEnd trimStart
  have h₁ : List.Sublist ((l.dropWhile pyIsSpace).reverse.dropWhile pyIsSpace)
      (l.dropWhile pyIsSpace).reverse := List.dropWhile_sublist pyIsSpace
  have h₂ := h₁.reverse
  rw [List.reverse_reverse] at h₂
  exact h₂.trans (List.dropWhile_sublist pyIsSpace)

/-- Helper: stripping keeps only characters of the input. -/
theorem pyStrip_subset (l : List Char) : ∀ c ∈ pyStrip l, c ∈ l :=
  fun _ hc => (pyStrip_sublist l).subset hc

/-- Helper: a non-empty fixed point of `pyStrip` has non-space head. -/
theorem pyStrip_fix_head (c : Char) (t : List Char)
    (h : pyStrip (c :: t) = c :: t) : pyIsSpace c = false := by
  have hlen₁ := dropWhile_length_le pyIsSpace (c :: t)
  have hlen₂ : (pyStrip (c :: t)).length ≤ (trimStart (c :: t)).length := by
    unfold pyStrip trimEnd
    have := dropWhile_length_le pyIsSpace (trimStart (c :: t)).reverse
    simpa using this
  have hfix : trimStart (c :: t) = c :: t := by
    apply dropWhile_length_eq
    rw [h] at hlen₂
    unfold trimStart at hlen₂
    omega
  exact dropWhile_fix_head pyIsSpace c t hfix

/-- Helper: a fixed point of `pyStrip` is also fixed by the right trim. -/
theorem pyStrip_fix_trimEnd (l : List Char) (h : pyStrip l = l) :
    trimEnd l = l := by
  have hts : trimStart l = l := by
    apply dropWhile_length_eq
    have h₁ : (pyStrip l).length ≤ (trimStart l).length := by
      unfold pyStrip trimEnd
      have := dropWhile_length_le pyIsSpace (trimStart l).reverse
      simpa using this
    have h₂ := dropWhile_length_le pyIsSpace l
    rw [h] at h₁
    unfold trimStart at h₁
    omega
  calc trimEnd l = trimEnd (trimStart l) := by rw [hts]
  _ = l := h

/-- Helper: a non-empty fixed point of `pyStrip` ends in non-space. -/
theorem pyStrip_fix_last (l : List Char) (h : pyStrip l = l) (d : Char)
    (t : List Char) (hrev : l.reverse = d :: t) : pyIsSpace d = false := by
  have hte := pyStrip_fix_trimEnd l h
  unfold trimEnd at hte
  have : l.reverse.dropWhile pyIsSpace = l.reverse := by
    have := congrArg List.reverse hte
    rwa [List.reverse_reverse] at this
  rw [hrev] at this
  exact dropWhile_fix_head pyIsSpace d t this

/-- Helper: one unfolding step of the line splitter. -/
theorem splitNl_cons (c : Char) (cs : List Char) :
    splitNl (c :: cs) =
      if c = '\n' then [] :: splitNl cs
      else
        match splitNl cs with
        | g :: gs => (c :: g) :: gs
        | [] => [[c]] := rfl

/-- Helper: splitting never yields an empty list of lines. -/
theorem splitNl_ne_nil (l : List Char) : splitNl l ≠ [] := by
  induction l with
  | nil => simp [splitNl]
  | cons c cs ih =>
    rw [splitNl_cons]
    by_cases hc : c = '\n'
    · simp [hc]
    · rw [if_neg hc]
      cases h : splitNl cs with
      | nil => exact absurd h ih
      | cons g gs => simp

/-- Helper: joining a single line is that line. -/
theorem joinNl_single (a : List Char) : joinNl [a] = a := by
  simp [joinNl, List.intercalate]

/-- Helper: joining two or more lines puts one newline between. -/
theorem joinNl_cons₂ (a b : List Char) (t : List (List Char)) :
    joinNl (a :: b :: t) = a ++ '\n' :: joinNl (b :: t) := rfl

/-- Helper: joining the split lines rebuilds the string. -/
theorem joinNl_splitNl (l : List Char) : joinNl (splitNl l) = l := by
  induction l with
  | nil => simp [splitNl, joinNl, List.intercalate]
  | cons c cs ih =>
    rw [splitNl_cons]
    by_cases hc : c = '\n'
    · subst hc
      rw [if_pos rfl]
      cases h : splitNl cs with
      | nil => exact absurd h (splitNl_ne_nil cs)
      | cons g gs =>
        have hj : joinNl ([] :: g :: gs) = '\n' :: joinNl (g :: gs) := by
          rw [joinNl_cons₂]
          rfl
        rw [hj, ← h, ih]
    · rw [if_neg hc]
      cases h : splitNl cs with
      | nil => exact absurd h (splitNl_ne_nil cs)
      | cons g gs =>
        have hj : joinNl ((c :: g) :: gs) = c :: joinNl (g :: gs) := by
          cases gs with
          | nil => rw [joinNl_single, joinNl_single]
          | cons b t =>
            rw [joinNl_cons₂, joinNl_cons₂]
            rfl
        rw [hj, ← h, ih]

/-- Helper: split lines contain no newline. -/
theorem splitNl_no_nl (l : List Char) : ∀ ln ∈ splitNl l, ('\n' : Char) ∉ ln := by
  induction l with
  | nil =>
    intro ln hln
    rcases List.mem_singleton.mp hln with rfl
    simp
  | cons c cs ih =>
    intro ln hln
    rw [splitNl_cons] at hln
    by_cases hc : c = '\n'
    · rw [if_pos hc] at hln
      rcases List.mem_cons.mp hln with rfl | h'
      · simp
      · exact ih ln h'
    · rw [if_neg hc] at hln
      cases h : splitNl cs with
      | nil => exact absurd h (splitNl_ne_nil cs)
      | cons g gs =>
        rw [h] at hln
        rcases List.mem_cons.mp hln with rfl | h'
        · intro hmem
          rcases List.mem_cons.mp hmem with h₂ | h₂
          · exact hc h₂.symm
          · exact ih g (h.symm ▸ List.mem_cons_self g gs) h₂
        · exact ih ln (h.symm ▸ List.mem_cons_of_mem g h')

/-- Helper: split lines only use characters of the string. -/
theorem splitNl_subset (l : List Char) : ∀ ln ∈ splitNl l, ∀ c ∈ ln, c ∈ l := by
  induction l with
  | nil =>
    intro ln hln c hc
    rcases List.mem_singleton.mp hln with rfl
    cases hc
  | cons a cs ih =>
    intro ln hln c hc
    rw [splitNl_cons] at hln
    by_cases ha : a = '\n'
    · rw [if_pos ha] at hln
      rcases List.mem_cons.mp hln with rfl | h'
      · cases hc
      · exact List.mem_cons_of_mem _ (ih ln h' c hc)
    · rw [if_neg ha] at hln
      cases h : splitNl cs with
      | nil => exact absurd h (splitNl_ne_nil cs)
      | cons g gs =>
        rw [h] at hln
        rcases List.mem_cons.mp hln with rfl | h'
        · rcases List.mem_cons.mp hc with rfl | h₂
          · exact List.mem_cons_self c cs
          · exact List.mem_cons_of_mem _
              (ih g (h.symm ▸ List.mem_cons_self g gs) c h₂)
        · exact List.mem_cons_of_mem _
            (ih ln (h.symm ▸ List.mem_cons_of_mem g h') c hc)

/-- Helper: a newline-free string splits into itself. -/
theorem splitNl_of_no_nl (a : List Char) (h : ('\n' : Char) ∉ a) :
    splitNl a = [a] := by
  induction a with
  | nil => rfl
  | cons c cs ih =>
    rw [splitNl_cons,
      if_neg (fun hc => h (by rw [hc]; exact List.mem_cons_self _ _)),
      ih (fun hm => h (List.mem_cons_of_mem c hm))]

/-- Helper: splitting at an explicit first newline. -/
theorem splitNl_append_nl (a z : List Char) (h : ('\n' : Char) ∉ a) :
    splitNl (a ++ '\n' :: z) = a :: splitNl z := by
  induction a with
  | nil =>
    simp only [List.nil_append]
    rw [splitNl_cons, if_pos rfl]
  | cons c cs ih =>
    rw [List.cons_append, splitNl_cons,
      if_neg (fun hc => h (by rw [hc]; exact List.mem_cons_self _ _)),
      ih (fun hm => h (List.mem_cons_of_mem c hm))]

/-- Helper: splitting a join of newline-free lines recovers the lines. -/
theorem splitNl_joinNl : ∀ es : List (List Char), es ≠ [] →
    (∀ ln ∈ es, ('\n' : Char) ∉ ln) → splitNl (joinNl es) = es := by
  intro es
  induction es with
  | nil => intro h _; exact absurd rfl h
  | cons a tl ih =>
    intro _ hlines
    cases tl with
    | nil =>
      rw [joinNl_single]
      exact splitNl_of_no_nl a (hlines a (List.mem_cons_self a _))
    | cons b t =>
      rw [joinNl_cons₂,
        splitNl_append_nl a (joinNl (b :: t)) (hlines a (List.mem_cons_self a _)),
        ih (by simp) (fun ln hln => hlines ln (List.mem_cons_of_mem a hln))]

/-- Helper: characters of a join come from the lines or are newlines. -/
theorem joinNl_mem (ls : List (List Char)) (c : Char) (hc : c ∈ joinNl ls) :
    (∃ ln ∈ ls, c ∈ ln) ∨ c = '\n' := by
  induction ls with
  | nil =>
    rw [show joinNl [] = [] from rfl] at hc
    cases hc
  | cons a tl ih =>
    cases tl with
    | nil =>
      rw [joinNl_single] at hc
      exact Or.inl ⟨a, List.mem_cons_self a _, hc⟩
    | cons b t =>
      rw [joinNl_cons₂] at hc
      rcases List.mem_append.mp hc with h' | h'
      · exact Or.inl ⟨a, List.mem_cons_self a _, h'⟩
      · rcases List.mem_cons.mp h' with rfl | h₂
        · exact Or.inr rfl
        · rcases ih h₂ with ⟨ln, hln, hc'⟩ | h₃
          · exact Or.inl ⟨ln, List.mem_cons_of_mem a hln, hc'⟩
          · exact Or.inr h₃

/-- Helper: a join is a sublist of the join with one more leading line. -/
theorem joinNl_sublist_cons (b : List Char) (l₂ : List (List Char)) :
    List.Sublist (joinNl l₂) (joinNl (b :: l₂)) := by
  cases l₂ with
  | nil => exact List.nil_sublist _
  | cons y ys =>
    rw [joinNl_cons₂]
    exact ((List.Sublist.refl (joinNl (y :: ys))).cons '\n').trans
      (List.sublist_append_right b ('\n' :: joinNl (y :: ys)))

/-- Helper: joining is monotone for the sublist order on line lists. -/
theorem joinNl_mono (ls' ls : List (List Char)) (h : List.Sublist ls' ls) :
    List.Sublist (joinNl ls') (joinNl ls) := by
  induction h with
  | slnil => exact List.Sublist.refl _
  | @cons l₁ l₂ b h ih => exact ih.trans (joinNl_sublist_cons b l₂)
  | @cons₂ l₁ l₂ a h ih =>
    cases l₁ with
    | nil =>
      cases l₂ with
      | nil => exact List.Sublist.refl _
      | cons y ys =>
        rw [joinNl_single, joinNl_cons₂]
        exact List.sublist_append_left a ('\n' :: joinNl (y :: ys))
    | cons x xs =>
      cases l₂ with
      | nil => exact absurd h (by simp)
      | cons y ys =>
        rw [joinNl_cons₂, joinNl_cons₂]
        exact (List.Sublist.refl a).append (ih.cons₂ '\n')

/-- Helper: joining respects pointwise sublists of lines. -/
theorem joinNl_forall₂ (ls' ls : List (List Char))
    (h : List.Forall₂ (fun a b => List.Sublist a b) ls' ls) :
    List.Sublist (joinNl ls') (joinNl ls) := by
  induction h with
  | nil => exact List.Sublist.refl _
  | @cons a b t' t ha htl ih =>
    cases htl with
    | nil => rw [joinNl_single, joinNl_single]; exact ha
    | cons hb htl₂ =>
      rw [joinNl_cons₂, joinNl_cons₂]
      exact ha.append (ih.cons₂ '\n')

/-- Helper: stripped lines are pointwise sublists. -/
theorem forall₂_strip (ls : List (List Char)) :
    List.Forall₂ (fun a b => List.Sublist a b) (ls.map pyStrip) ls := by
  induction ls with
  | nil => exact List.Forall₂.nil
  | cons a tl ih => exact List.Forall₂.cons (pyStrip_sublist a) ih

/-- Helper: the blank-line limiter keeps a sublist of the lines. -/
theorem collapseBlanks_sublist : ∀ (b : Nat) (ls : List (List Char)),
    List.Sublist (collapseBlanks b ls) ls := by
  intro b ls
  induction ls generalizing b with
  | nil => exact List.Sublist.refl _
  | cons ln rest ih =>
    rw [collapseBlanks]
    by_cases hln : ln = []
    · rw [if_pos hln]
      by_cases hb : b + 1 ≤ 1
      · rw [if_pos hb, hln]
        exact (ih (b + 1)).cons₂ []
      · rw [if_neg hb]
        exact (ih (b + 1)).cons ln
    · rw [if_neg hln]
      exact (ih 0).cons₂ ln

/-- Irreflexive-blank relation between adjacent lines: not both empty. -/
def blRel (a b : List Char) : Prop := a ≠ [] ∨ b ≠ []

/-- Helper: the blank-line limiter never leaves two adjacent blanks, and with
a positive counter its first kept line is non-blank. -/
theorem collapse_pair : ∀ (ls : List (List Char)) (b : Nat),
    List.Chain' blRel (collapseBlanks b ls) ∧
      (1 ≤ b → ∀ x t, collapseBlanks b ls = x :: t → x ≠ []) := by
  intro ls
  induction ls with
  | nil => exact fun b => ⟨List.chain'_nil, fun _ x t h => by cases h⟩
  | cons ln rest ih =>
    intro b
    constructor
    · rw [collapseBlanks]
      by_cases hln : ln = []
      · rw [if_pos hln]
        by_cases hb : b + 1 ≤ 1
        · rw [if_pos hb]
          subst hln
          refine List.chain'_cons'.mpr ⟨?_, (ih (b + 1)).1⟩
          intro y hy
          cases hC : collapseBlanks (b + 1) rest with
          | nil => rw [hC] at hy; cases hy
          | cons x t =>
            rw [hC] at hy
            simp only [List.head?_cons, Option.mem_def, Option.some_inj] at hy
            refine Or.inr ?_
            rcases hy with rfl
            exact (ih (b + 1)).2 (by omega) _ t hC
        · rw [if_neg hb]
          exact (ih (b + 1)).1
      · rw [if_neg hln]
        exact List.chain'_cons'.mpr ⟨fun y _ => Or.inl hln, (ih 0).1⟩
    · intro hb x t h
      rw [collapseBlanks] at h
      by_cases hln : ln = []
      · rw [if_pos hln] at h
        rw [if_neg (by omega)] at h
        exact (ih (b + 1)).2 (by omega) x t h
      · rw [if_neg hln] at h
        injection h with h₁ h₂
        exact h₁ ▸ hln
/-- Helper: the limiter changes nothing when no two adjacent lines are
blank. -/
theorem collapse0_id : ∀ ls : List (List Char), List.Chain' blRel ls →
    collapseBlanks 0 ls = ls := by
  intro ls
  induction ls with
  | nil => intro _; rfl
  | cons ln rest ih =>
    intro hch
    have hhead := (List.chain'_cons'.mp hch).1
    have hch' := (List.chain'_cons'.mp hch).2
    rw [collapseBlanks]
    by_cases hln : ln = []
    · rw [if_pos hln, if_pos (by omega : 0 + 1 ≤ 1)]
      subst hln
      congr 1
      cases rest with
      | nil => rfl
      | cons r rs =>
        have hr : r ≠ [] := by
          rcases hhead r (by simp) with h | h
          · exact absurd rfl h
          · exact h
        have h0 := ih hch'
        rw [collapseBlanks, if_neg hr] at h0 ⊢
        injection h0 with _ h0
        rw [h0]
    · rw [if_neg hln]
      congr 1
      exact ih hch'

/-- Helper: left-trimming a join drops exactly the leading blank lines, when
every non-blank line starts with non-space. -/
theorem trimStart_joinNl : ∀ ms : List (List Char),
    (∀ ln ∈ ms, ln = [] ∨ ∃ c t, ln = c :: t ∧ pyIsSpace c = false) →
    trimStart (joinNl ms) = joinNl (ms.dropWhile (fun ln => ln.isEmpty)) := by
  intro ms
  induction ms with
  | nil => intro _; rfl
  | cons ln rest ih =>
    intro h
    rcases h ln (List.mem_cons_self ln _) with rfl | ⟨c, t, rfl, hc⟩
    · rw [List.dropWhile_cons_of_pos (by simp)]
      cases rest with
      | nil =>
        rw [joinNl_single]
        rfl
      | cons b tl =>
        rw [joinNl_cons₂]
        have hstep : trimStart (([] : List Char) ++ '\n' :: joinNl (b :: tl)) =
            trimStart (joinNl (b :: tl)) := by
          simp only [List.nil_append]
          unfold trimStart
          rw [List.dropWhile_cons_of_pos (by decide)]
        rw [hstep, ih (fun x hx => h x (List.mem_cons_of_mem _ hx))]
    · rw [List.dropWhile_cons_of_neg (by simp)]
      cases rest with
      | nil =>
        rw [joinNl_single]
        unfold trimStart
        exact List.dropWhile_cons_of_neg (by simp [hc])
      | cons b tl =>
        rw [joinNl_cons₂]
        unfold trimStart
        exact List.dropWhile_cons_of_neg (by simp [hc])

/-- Helper: appending one line to a non-empty line list appends one newline
and that line. -/
theorem joinNl_append_single : ∀ (L : List (List Char)) (x : List Char),
    L ≠ [] → joinNl (L ++ [x]) = joinNl L ++ '\n' :: x := by
  intro L
  induction L with
  | nil => intro x hL; exact absurd rfl hL
  | cons a tl ih =>
    intro x _
    cases tl with
    | nil =>
      rw [joinNl_single,
        show ([a] ++ [x] : List (List Char)) = [a, x] from rfl, joinNl_cons₂,
        joinNl_single]
    | cons b t =>
      have h₁ : (a :: b :: t) ++ [x] = a :: ((b :: t) ++ [x]) := rfl
      have h₂ : (b :: t) ++ [x] = b :: (t ++ [x]) := rfl
      rw [h₁, h₂, joinNl_cons₂, ← h₂, ih x (by simp), joinNl_cons₂]
      simp

/-- Helper: reversing a join reverses the lines and their order. -/
theorem joinNl_reverse : ∀ ms : List (List Char),
    (joinNl ms).reverse = joinNl ((ms.map List.reverse).reverse) := by
  intro ms
  induction ms with
  | nil => rfl
  | cons a tl ih =>
    cases tl with
    | nil =>
      rw [joinNl_single]
      simp [joinNl_single]
    | cons b t =>
      rw [joinNl_cons₂, List.reverse_append,
        show ('\n' :: joinNl (b :: t)).reverse =
          (joinNl (b :: t)).reverse ++ ['\n'] from by simp,
        ih]
      have hmap : ((a :: b :: t).map List.reverse).reverse =
          ((b :: t).map List.reverse).reverse ++ [a.reverse] := by simp
      rw [hmap, joinNl_append_single _ _ (by simp)]
      simp

/-- Helper: blank-dropping commutes with reversing each line. -/
theorem dropWhile_isEmpty_map_rev (w : List (List Char)) :
    (w.map List.reverse).dropWhile (fun ln => ln.isEmpty) =
      (w.dropWhile (fun ln => ln.isEmpty)).map List.reverse := by
  induction w with
  | nil => rfl
  | cons a tl ih =>
    by_cases ha : a.isEmpty
    · have ha' : a = [] := by simpa using ha
      subst ha'
      simp only [List.map_cons, List.reverse_nil]
      rw [List.dropWhile_cons_of_pos (by simp),
        List.dropWhile_cons_of_pos (by simp), ih]
    · have h₁ : a.reverse.isEmpty = false := by
        cases a with
        | nil => simp at ha
        | cons c cs => simp
      simp only [List.map_cons]
      rw [List.dropWhile_cons_of_neg (by simp [h₁]),
        List.dropWhile_cons_of_neg (by simpa using ha)]
      simp

/-- Helper: a list is its end-trim plus a trailing run satisfying the
predicate. -/
theorem dropEnd_split (p : List Char → Bool) (l : List (List Char)) :
    ∃ ws, l = (l.reverse.dropWhile p).reverse ++ ws ∧ ∀ a ∈ ws, p a = true := by
  refine ⟨(l.reverse.takeWhile p).reverse, ?_, ?_⟩
  · conv_lhs =>
      rw [← List.reverse_reverse l, ← List.takeWhile_append_dropWhile p l.reverse]
    rw [List.reverse_append]
  · intro a ha
    exact List.mem_takeWhile_imp (List.mem_reverse.mp ha)

/-- Drop blank lines at both ends of a line list. -/
def trimBlanks (ms : List (List Char)) : List (List Char) :=
  ((ms.dropWhile (fun ln => ln.isEmpty)).reverse.dropWhile
    (fun ln => ln.isEmpty)).reverse

/-- Helper: stripping a join drops exactly the blank lines at both ends,
when every non-blank line starts and ends with non-space. -/
theorem pyStrip_joinNl (ms : List (List Char))
    (h : ∀ ln ∈ ms, ln = [] ∨
      (∃ c t, ln = c :: t ∧ pyIsSpace c = false) ∧
      (∃ d t', ln.reverse = d :: t' ∧ pyIsSpace d = false)) :
    pyStrip (joinNl ms) = joinNl (trimBlanks ms) := by
  unfold pyStrip
  rw [trimStart_joinNl ms
    (fun ln hln => (h ln hln).imp id (fun hp => hp.1))]
  have hsub₁ : ∀ ln ∈ ms.dropWhile (fun ln => ln.isEmpty), ln ∈ ms :=
    fun ln hln => (List.dropWhile_sublist _).subset hln
  unfold trimEnd
  rw [joinNl_reverse (ms.dropWhile (fun ln => ln.isEmpty))]
  have hcond : ∀ ln' ∈ (((ms.dropWhile (fun ln => ln.isEmpty)).map
      List.reverse).reverse),
      ln' = [] ∨ ∃ c t, ln' = c :: t ∧ pyIsSpace c = false := by
    intro ln' hln'
    rw [List.mem_reverse, List.mem_map] at hln'
    obtain ⟨ln, hln, rfl⟩ := hln'
    rcases h ln (hsub₁ ln hln) with rfl | ⟨_, ⟨d, t', hrev, hd⟩⟩
    · exact Or.inl rfl
    · exact Or.inr ⟨d, t', hrev, hd⟩
  have hP1 := trimStart_joinNl (((ms.dropWhile (fun ln => ln.isEmpty)).map
      List.reverse).reverse) hcond
  unfold trimStart at hP1
  rw [hP1]
  rw [show ((ms.dropWhile (fun ln => ln.isEmpty)).map List.reverse).reverse =
      ((ms.dropWhile (fun ln => ln.isEmpty)).reverse).map List.reverse from by
    simp]
  rw [dropWhile_isEmpty_map_rev]
  have hR2 := joinNl_reverse (((ms.dropWhile (fun ln => ln.isEmpty)).reverse.dropWhile
      (fun ln => ln.isEmpty)).reverse)
  unfold trimBlanks
  rw [show ((((ms.dropWhile (fun ln => ln.isEmpty)).reverse.dropWhile
        (fun ln => ln.isEmpty)).reverse).map List.reverse).reverse =
      (((ms.dropWhile (fun ln => ln.isEmpty)).reverse.dropWhile
        (fun ln => ln.isEmpty))).map List.reverse from by simp] at hR2
  rw [← hR2, List.reverse_reverse]

/-- Helper: unpack the safe-character conjunction. -/
theorem idemSafeChar_spec (c : Char) (h : idemSafeChar c = true) :
    c ≠ 'Â' ∧ c ≠ '&' ∧ c ≠ '/' ∧ ctrlChar c = false := by
  unfold idemSafeChar at h
  simp only [Bool.and_eq_true, Bool.not_eq_true', beq_eq_false_iff_ne, ne_eq] at h
  exact ⟨h.1.1.1.1.1.2, h.1.1.2, h.1.2, h.2⟩

/-- Helper: under the safe conditions `_strip_mojibake` reduces to the pure
line stage over the newline-normalized input. -/
theorem stripMojibake_safe (x : List Char) (hch : ∀ c ∈ x, idemSafeChar c = true)
    (hdot : x.count '.' ≤ 1) :
    stripMojibake x = pyStrip (joinNl (collapseBlanks 0
      ((splitNl (newlineNorm x)).map pyStrip))) := by
  by_cases hx : x = []
  · subst hx; rfl
  · have hamp : ∀ c ∈ x, c ≠ '&' := fun c hc => (idemSafeChar_spec c (hch c hc)).2.1
    have hctrl : x.filter (fun c => !ctrlChar c) = x := by
      rw [List.filter_eq_self]
      intro c hc
      simp [(idemSafeChar_spec c (hch c hc)).2.2.2]
    simp only [stripMojibake]
    rw [if_neg hx, repairStage_id_aux x (idemSafe_clean x hch),
      show pyUnescape x = x from pyUnescapeF_id _ x hamp, hctrl,
      show ellipsisSub x = x from
        ellipsisSubF_id _ x (hasEllipsis_false_of_count x hdot)]

/-- Helper: characters surviving the line stage come from the
newline-normalized input or are newlines. -/
theorem sform_mem_nn (x : List Char) (c : Char)
    (hc : c ∈ pyStrip (joinNl (collapseBlanks 0
      ((splitNl (newlineNorm x)).map pyStrip)))) :
    c ∈ newlineNorm x ∨ c = '\n' := by
  have h₁ := pyStrip_subset _ c hc
  rcases joinNl_mem _ c h₁ with ⟨ln, hln, hcl⟩ | h₂
  · have hln₂ : ln ∈ (splitNl (newlineNorm x)).map pyStrip :=
      (collapseBlanks_sublist 0 _).subset hln
    rw [List.mem_map] at hln₂
    obtain ⟨ln₀, hln₀, rfl⟩ := hln₂
    exact Or.inl (splitNl_subset _ ln₀ hln₀ c (pyStrip_subset ln₀ c hcl))
  · exact Or.inr h₂

/-- Helper: the line stage does not add periods. -/
theorem sform_count (x : List Char) :
    (pyStrip (joinNl (collapseBlanks 0
      ((splitNl (newlineNorm x)).map pyStrip)))).count '.' ≤ x.count '.' := by
  have h₁ := (pyStrip_sublist (joinNl (collapseBlanks 0
    ((splitNl (newlineNorm x)).map pyStrip)))).count_le '.'
  have h₂ := (joinNl_mono _ _ (collapseBlanks_sublist 0
    ((splitNl (newlineNorm x)).map pyStrip))).count_le '.'
  have h₃ := (joinNl_forall₂ _ _ (forall₂_strip (splitNl (newlineNorm x)))).count_le '.'
  rw [joinNl_splitNl (newlineNorm x)] at h₃
  have h₄ := newlineNorm_count_dot x.length x le_rfl
  omega

/-- Helper: the kept lines of the line stage are strip-fixed. -/
theorem mform_strip_fixed (x : List Char) :
    ∀ ln ∈ collapseBlanks 0 ((splitNl (newlineNorm x)).map pyStrip),
      pyStrip ln = ln := by
  intro ln hln
  have hln₂ : ln ∈ (splitNl (newlineNorm x)).map pyStrip :=
    (collapseBlanks_sublist 0 _).subset hln
  rw [List.mem_map] at hln₂
  obtain ⟨ln₀, _, rfl⟩ := hln₂
  exact pyStrip_idem ln₀

/-- Helper: the kept lines of the line stage contain no newline. -/
theorem mform_no_nl (x : List Char) :
    ∀ ln ∈ collapseBlanks 0 ((splitNl (newlineNorm x)).map pyStrip),
      ('\n' : Char) ∉ ln := by
  intro ln hln hmem
  have hln₂ : ln ∈ (splitNl (newlineNorm x)).map pyStrip :=
    (collapseBlanks_sublist 0 _).subset hln
  rw [List.mem_map] at hln₂
  obtain ⟨ln₀, hln₀, rfl⟩ := hln₂
  exact splitNl_no_nl (newlineNorm x) ln₀ hln₀ (pyStrip_subset ln₀ '\n' hmem)

/-- Helper: a strip-fixed line is empty or flanked by non-space. -/
theorem stripped_line_shape (ln : List Char) (h : pyStrip ln = ln) :
    ln = [] ∨
      (∃ c t, ln = c :: t ∧ pyIsSpace c = false) ∧
      (∃ d t', ln.reverse = d :: t' ∧ pyIsSpace d = false) := by
  cases hln : ln with
  | nil => exact Or.inl rfl
  | cons c t =>
    right
    subst hln
    refine ⟨⟨c, t, rfl, pyStrip_fix_head c t h⟩, ?_⟩
    cases hrev : (c :: t).reverse with
    | nil => exact absurd hrev (by simp)
    | cons d t' => exact ⟨d, t', rfl, pyStrip_fix_last (c :: t) h d t' hrev⟩

/-- Helper: edge-blank trimming keeps only lines of the input. -/
theorem trimBlanks_subset (ms : List (List Char)) :
    ∀ ln ∈ trimBlanks ms, ln ∈ ms := by
  intro ln hln
  unfold trimBlanks at hln
  rw [List.mem_reverse] at hln
  have h₁ := (List.dropWhile_sublist (l :=
    (ms.dropWhile (fun ln => ln.isEmpty)).reverse)
    (fun ln => ln.isEmpty)).subset hln
  rw [List.mem_reverse] at h₁
  exact (List.dropWhile_sublist (fun ln => ln.isEmpty)).subset h₁

/-- Helper: edge-blank trimming keeps the no-adjacent-blanks property. -/
theorem trimBlanks_chain (ms : List (List Char))
    (h : List.Chain' blRel ms) : List.Chain' blRel (trimBlanks ms) := by
  have h₁ : List.Chain' blRel (ms.dropWhile (fun ln => ln.isEmpty)) := by
    have hsplit := List.takeWhile_append_dropWhile (fun ln => ln.isEmpty) ms
    rw [← hsplit] at h
    exact (List.chain'_append.mp h).2.1
  obtain ⟨ws, hsplit₂, _⟩ :=
    dropEnd_split (fun ln => ln.isEmpty) (ms.dropWhile (fun ln => ln.isEmpty))
  rw [hsplit₂] at h₁
  exact (List.chain'_append.mp h₁).1

/-- Helper: mapping the strip over strip-fixed lines changes nothing. -/
theorem map_strip_id (es : List (List Char)) (h : ∀ ln ∈ es, pyStrip ln = ln) :
    es.map pyStrip = es := by
  induction es with
  | nil => rfl
  | cons a tl ih =>
    rw [List.map_cons, h a (List.mem_cons_self a _),
      ih (fun ln hln => h ln (List.mem_cons_of_mem a hln))]

/-- Helper: the line stage fixes anything already produced by the line
stage. -/
theorem lineStage_fix (ms : List (List Char))
    (hfix : ∀ ln ∈ ms, pyStrip ln = ln)
    (hch : List.Chain' blRel ms)
    (hnl : ∀ ln ∈ ms, ('\n' : Char) ∉ ln) :
    pyStrip (joinNl (collapseBlanks 0
      ((splitNl (pyStrip (joinNl ms))).map pyStrip))) = pyStrip (joinNl ms) := by
  have hshape : ∀ ln ∈ ms, ln = [] ∨
      (∃ c t, ln = c :: t ∧ pyIsSpace c = false) ∧
      (∃ d t', ln.reverse = d :: t' ∧ pyIsSpace d = false) :=
    fun ln hln => stripped_line_shape ln (hfix ln hln)
  have hPfull : pyStrip (joinNl ms) = joinNl (trimBlanks ms) :=
    pyStrip_joinNl ms hshape
  by_cases hes : trimBlanks ms = []
  · rw [hPfull, hes]
    rfl
  · have hesfix : ∀ ln ∈ trimBlanks ms, pyStrip ln = ln :=
      fun ln hln => hfix ln (trimBlanks_subset ms ln hln)
    have hesnl : ∀ ln ∈ trimBlanks ms, ('\n' : Char) ∉ ln :=
      fun ln hln => hnl ln (trimBlanks_subset ms ln hln)
    have heschain : List.Chain' blRel (trimBlanks ms) := trimBlanks_chain ms hch
    rw [hPfull, splitNl_joinNl (trimBlanks ms) hes hesnl,
      map_strip_id _ hesfix, collapse0_id _ heschain, ← hPfull]
    exact pyStrip_idem _

/-- C4 counterexample: the ellipsis-collapsing step makes normalization
non-idempotent — `cleanup "...."` is `". ."`, whose second pass collapses
further to `"."`. -/
theorem cleanup_not_idempotent :
    cleanup (cleanup ("....".data)) ≠ cleanup ("....".data) := by decide

/-- C4 amended: the normalization chain is idempotent on strings containing
no C1 characters, no mojibake lead characters (`Â`, `â`, `ð`), no `&`,
no `/`, no stripped control characters, and at most one period. -/
theorem cleanup_idem (x : List Char) (h : idemSafe x) :
    cleanup (cleanup x) = cleanup x := by
  obtain ⟨hch, hdot⟩ := h
  have hA := stripMojibake_safe x hch hdot
  have hmemS : ∀ c ∈ pyStrip (joinNl (collapseBlanks 0
      ((splitNl (newlineNorm x)).map pyStrip))), c ∈ newlineNorm x ∨ c = '\n' :=
    fun c hc => sform_mem_nn x c hc
  have hnoslashS : hasUrl (pyStrip (joinNl (collapseBlanks 0
      ((splitNl (newlineNorm x)).map pyStrip)))) = false := by
    apply hasUrl_false_of_no_slash
    intro c hc hcs
    rcases hmemS c hc with h₁ | h₁
    · rcases newlineNorm_mem x.length x le_rfl c h₁ with h₂ | h₂
      · exact (idemSafeChar_spec c (hch c h₂)).2.2.1 hcs
      · rw [hcs] at h₂; exact absurd h₂ (by decide)
    · rw [hcs] at h₁; exact absurd h₁ (by decide)
  have hclean : cleanup x = pyStrip (joinNl (collapseBlanks 0
      ((splitNl (newlineNorm x)).map pyStrip))) := by
    unfold cleanup
    rw [hA,
      show urlSub (pyStrip (joinNl (collapseBlanks 0
        ((splitNl (newlineNorm x)).map pyStrip)))) = pyStrip (joinNl
        (collapseBlanks 0 ((splitNl (newlineNorm x)).map pyStrip))) from
      urlSubF_id _ _ hnoslashS]
    exact pyStrip_idem _
  have hchY : ∀ c ∈ cleanup x, idemSafeChar c = true := by
    intro c hc
    rw [hclean] at hc
    rcases hmemS c hc with h₁ | h₁
    · rcases newlineNorm_mem x.length x le_rfl c h₁ with h₂ | h₂
      · exact hch c h₂
      · rw [h₂]; decide
    · rw [h₁]; decide
  have hdotY : (cleanup x).count '.' ≤ 1 := by
    rw [hclean]
    exact le_trans (sform_count x) hdot
  have hcrY : ∀ c ∈ cleanup x, c ≠ '\r' := by
    intro c hc hcr
    rw [hclean] at hc
    rcases hmemS c hc with h₁ | h₁
    · rw [hcr] at h₁
      exact newlineNorm_no_cr x.length x le_rfl h₁
    · rw [hcr] at h₁; exact absurd h₁ (by decide)
  have hA₂ := stripMojibake_safe (cleanup x) hchY hdotY
  have hnn : newlineNorm (cleanup x) = cleanup x := newlineNorm_id _ hcrY
  have hlinefix : pyStrip (joinNl (collapseBlanks 0
      ((splitNl (cleanup x)).map pyStrip))) = cleanup x := by
    rw [hclean]
    exact lineStage_fix (collapseBlanks 0 ((splitNl (newlineNorm x)).map pyStrip))
      (mform_strip_fixed x) ((collapse_pair _ 0).1) (mform_no_nl x)
  have hstrip₂ : stripMojibake (cleanup x) = cleanup x := by
    rw [hA₂, hnn, hlinefix]
  have hnoslashY : hasUrl (cleanup x) = false := by
    rw [hclean]; exact hnoslashS
  have hstep : cleanup (cleanup x) = pyStrip (urlSub (stripMojibake (cleanup x))) :=
    rfl
  rw [hstep, hstrip₂,
    show urlSub (cleanup x) = cleanup x from urlSubF_id _ _ hnoslashY, hclean]
  exact pyStrip_idem _

/-- Witness for C4 amended at a concrete safe string with collapsible
whitespace. -/
theorem cleanup_idem_witness :
    idemSafe ("Hello  world\n\n\n\nBye now. ".data) ∧
      cleanup (cleanup ("Hello  world\n\n\n\nBye now. ".data)) =
        cleanup ("Hello  world\n\n\n\nBye now. ".data) :=
  ⟨⟨by decide, by decide⟩, cleanup_idem _ ⟨by decide, by decide⟩⟩
